import Mathlib

/-!
Verification development for the bookmarker repository.

The Python source is shallowly embedded: pure functions become Lean
functions, in-place mutation of the bookmark tree becomes tree-rebuilding,
and external effects (file reads/writes, the process check, `uuid4`,
`datetime.now()`) become explicit parameters.  Option-valued results model
Python exceptions where the source can raise.

Modelling notes on the standard library pieces the source calls:
* `urllib.parse.urlparse` is modelled faithfully for its documented core
  algorithm (scheme / netloc / path / params / query / fragment splitting,
  including the `uses_params` scheme list and the bracket-balance
  `ValueError`, modelled as `none`).  The Unicode-NFKC netloc security
  check and the WHATWG control-character stripping of recent CPython
  patch releases are outside the modelled character domain.
* `str.lower()` is modelled on the ASCII letters, the domain on which all
  claims operate.
* In-place mutation through Python aliases (`store.add(bm, parent_id=node.id)`
  followed by reads of the aliased node) is modelled by rewriting the first
  depth-first node carrying that id, which coincides with the source
  whenever node ids are unique (the store invariant of spec section 3).
-/

set_option autoImplicit false

namespace Bookmarker

/-! ## ASCII lowercasing, modelling Python `str.lower` on the claims' domain -/

/-- The 26 uppercase/lowercase ASCII pairs used by `str.lower`. -/
def caseTable : List (Char × Char) :=
  [('A', 'a'), ('B', 'b'), ('C', 'c'), ('D', 'd'), ('E', 'e'), ('F', 'f'),
   ('G', 'g'), ('H', 'h'), ('I', 'i'), ('J', 'j'), ('K', 'k'), ('L', 'l'),
   ('M', 'm'), ('N', 'n'), ('O', 'o'), ('P', 'p'), ('Q', 'q'), ('R', 'r'),
   ('S', 's'), ('T', 't'), ('U', 'u'), ('V', 'v'), ('W', 'w'), ('X', 'x'),
   ('Y', 'y'), ('Z', 'z')]

/-- Lowercase one character, as Python `str.lower` does on ASCII input. -/
def lowerChar (c : Char) : Char :=
  match caseTable.find? (fun p => p.1 = c) with
  | some p => p.2
  | none => c

/-- Lowercase a character list. -/
def lowerL (l : List Char) : List Char := l.map lowerChar

/-! ## The `urllib.parse.urlparse` model -/

/-- The characters admissible in a URL scheme (`scheme_chars` in CPython). -/
def schemeChars : List Char :=
  "abcdefghijklmnopqrstuvwxyzABCDEFGHIJKLMNOPQRSTUVWXYZ0123456789+-.".data

/-- Result of `urlsplit`: scheme, netloc, path, query, fragment. -/
structure SplitResult where
  scheme : List Char
  netloc : List Char
  path : List Char
  query : List Char
  fragment : List Char
deriving DecidableEq, Repr

/-- The scheme-splitting step of `urlsplit`: if the text before the first
colon is a wellformed scheme (nonempty, leading ASCII letter, only scheme
characters) it is split off and lowercased; otherwise the url is untouched. -/
def splitScheme (cs : List Char) : List Char × List Char :=
  match cs.findIdx? (fun c => c = ':') with
  | some i =>
    if 0 < i ∧ (cs.headD ' ').isAlpha ∧ (cs.take i).all (fun c => c ∈ schemeChars) then
      (lowerL (cs.take i), cs.drop (i + 1))
    else ([], cs)
  | none => ([], cs)

/-- `_splitnetloc`: the netloc runs up to the first of `/`, `?`, `#`. -/
def netlocStop (c : Char) : Bool := c = '/' ∨ c = '?' ∨ c = '#'

/-- Split at the first `#`, as `url.split('#', 1)`. -/
def splitHash (cs : List Char) : List Char × List Char :=
  if '#' ∈ cs then
    (cs.takeWhile (fun c => ¬ c = '#'), (cs.dropWhile (fun c => ¬ c = '#')).drop 1)
  else (cs, [])

/-- Split at the first `?`, as `url.split('?', 1)`. -/
def splitQuery (cs : List Char) : List Char × List Char :=
  if '?' ∈ cs then
    (cs.takeWhile (fun c => ¬ c = '?'), (cs.dropWhile (fun c => ¬ c = '?')).drop 1)
  else (cs, [])

/-- `urlsplit(url)`.  `none` models the `ValueError` raised on a netloc
with unbalanced square brackets (the invalid-IPv6 check). -/
def urlsplit (url : List Char) : Option SplitResult :=
  let s := splitScheme url
  let scheme := s.1
  let rest := s.2
  if rest.take 2 = ['/', '/'] then
    let netloc := (rest.drop 2).takeWhile (fun c => ¬ netlocStop c)
    let rest2 := (rest.drop 2).dropWhile (fun c => ¬ netlocStop c)
    if ('[' ∈ netloc ∧ ¬ ']' ∈ netloc) ∨ (']' ∈ netloc ∧ ¬ '[' ∈ netloc) then
      none
    else
      let f := splitHash rest2
      let q := splitQuery f.1
      some ⟨scheme, netloc, q.1, q.2, f.2⟩
  else
    let f := splitHash rest
    let q := splitQuery f.1
    some ⟨scheme, [], q.1, q.2, f.2⟩

/-- Result of `urlparse`: `urlsplit` plus the path-parameter split. -/
structure ParseResult where
  scheme : List Char
  netloc : List Char
  path : List Char
  params : List Char
  query : List Char
  fragment : List Char
deriving DecidableEq, Repr

/-- The schemes for which `urlparse` splits path parameters (`uses_params`). -/
def usesParams : List (List Char) :=
  [[], "ftp".data, "hdl".data, "prospero".data, "http".data, "imap".data,
   "https".data, "shttp".data, "rtsp".data, "rtspu".data, "sip".data,
   "sips".data, "mms".data, "sftp".data, "tel".data]

/-- Index of the last slash in `cs` (meaningful when `'/' ∈ cs`),
modelling `url.rfind('/')`. -/
def lastSlashIdx (cs : List Char) : Nat :=
  cs.length - 1 - cs.reverse.findIdx (fun c => c = '/')

/-- `url.find(';', start)`: first index of `;` at or after `start`. -/
def findSemiFrom (start : Nat) (cs : List Char) : Option Nat :=
  ((cs.drop start).findIdx? (fun c => c = ';')).map (fun j => j + start)

/-- `_splitparams(url)`: split path parameters after the last slash. -/
def splitparams (cs : List Char) : List Char × List Char :=
  let i? := if '/' ∈ cs then findSemiFrom (lastSlashIdx cs) cs
            else cs.findIdx? (fun c => c = ';')
  match i? with
  | some i => (cs.take i, cs.drop (i + 1))
  | none => (cs, [])

/-- `urlparse(url)`: `urlsplit` plus parameter splitting for `uses_params`
schemes. -/
def urlparse (url : List Char) : Option ParseResult :=
  (urlsplit url).map (fun r =>
    if r.scheme ∈ usesParams ∧ ';' ∈ r.path then
      let p := splitparams r.path
      ⟨r.scheme, r.netloc, p.1, p.2, r.query, r.fragment⟩
    else ⟨r.scheme, r.netloc, r.path, [], r.query, r.fragment⟩)

/-! ## `normalize_url` (models/bookmark.py) -/

/-- `path.rstrip("/")`: remove every trailing slash. -/
def rstripSlash (cs : List Char) : List Char :=
  (cs.reverse.dropWhile (fun c => c = '/')).reverse

/-- `normalize_url(url)` from models/bookmark.py: empty input yields empty
output; otherwise parse, lowercase scheme and netloc, strip trailing
slashes from the path, and rebuild `scheme://host{path}` when a host was
found, returning the input unchanged when not.  `none` models the
`ValueError` that `urlparse` can raise. -/
def normalize_url (url : String) : Option String :=
  if url = "" then some ""
  else
    match urlparse url.data with
    | none => none
    | some p =>
      let scheme := lowerL p.scheme
      let host := lowerL p.netloc
      let path := rstripSlash p.path
      if host ≠ [] then
        some (String.mk (scheme ++ [':', '/', '/'] ++ host ++ path))
      else some url

/-! ## The bookmark tree model (models/bookmark.py) -/

/-- Bookmark node type. -/
inductive BookmarkType where
  | url
  | folder
deriving DecidableEq, Repr

/-- The scalar fields of a `Bookmark` dataclass instance. -/
structure BookmarkData where
  id : String
  type : BookmarkType
  title : String
  url : String
  parent_id : Option String
  position : Nat
  date_added : String
  date_modified : String
  preferred_browser : Option String
  source_browser : Option String
  source_id : Option String
deriving DecidableEq, Repr

/-- A bookmark tree node: scalar fields plus the owned children list. -/
inductive Bookmark where
  | mk (data : BookmarkData) (children : List Bookmark)

/-- Scalar fields of a node. -/
def Bookmark.data : Bookmark → BookmarkData
  | .mk d _ => d

/-- Children list of a node. -/
def Bookmark.children : Bookmark → List Bookmark
  | .mk _ cs => cs

/-- Rebuild a node with `parent_id` and `position` set, as `store.add` does
on the bookmark being added. -/
def Bookmark.withParentPos (b : Bookmark) (pid : Option String) (pos : Nat) : Bookmark :=
  match b with
  | .mk d cs => .mk { d with parent_id := pid, position := pos } cs

/-- Rebuild a node with `parent_id` set, as `move` does before reinserting. -/
def Bookmark.withParent (b : Bookmark) (pid : Option String) : Bookmark :=
  match b with
  | .mk d cs => .mk { d with parent_id := pid } cs

/-- Python truthiness of an optional string (`None` and `""` are falsy). -/
def strTruthy : Option String → Bool
  | some s => ¬ s = ""
  | none => false

/-- The store: version, last-modified stamp, and the name-keyed roots
mapping (a Python dict, modelled as an insertion-ordered association
list). -/
structure BookmarkStore where
  version : Nat
  last_modified : String
  roots : List (String × Bookmark)

/-- `roots.get(name)` on the roots mapping. -/
def rootsGet (roots : List (String × Bookmark)) (name : String) : Option Bookmark :=
  (roots.find? (fun e => e.1 = name)).map (fun e => e.2)

/-- Replace the value stored under `name` in the roots mapping. -/
def rootsSet (name : String) (b : Bookmark) : List (String × Bookmark) → List (String × Bookmark)
  | [] => []
  | (n, r) :: rest => if n = name then (n, b) :: rest else (n, r) :: rootsSet name b rest

/-- A fresh empty root folder as `__post_init__` creates it. -/
def defaultRoot (rid title now : String) : Bookmark :=
  .mk { id := rid, type := .folder, title := title, url := "",
        parent_id := none, position := 0, date_added := now,
        date_modified := now, preferred_browser := none,
        source_browser := none, source_id := none } []

/-- The store created by `__post_init__` when no roots exist: fresh
"bookmark_bar" and "other" folder roots.  The two uuids and the timestamp
are parameters. -/
def defaultStore (barId otherId now : String) : BookmarkStore :=
  ⟨1, now,
   [("bookmark_bar", defaultRoot barId "Bookmarks Bar" now),
    ("other", defaultRoot otherId "Other Bookmarks" now)]⟩

/-- A browser snapshot as the readers produce it: a store whose
`bookmark_bar` root holds the given children. -/
def browserSnapshot (rd : BookmarkData) (children : List Bookmark) : BookmarkStore :=
  ⟨1, "", [("bookmark_bar", .mk rd children)]⟩

mutual

/-- `_find_in` applied to one child: check its id, then search its
subtree. -/
def findInBM (bid : String) : Bookmark → Option Bookmark
  | .mk d cs =>
    if d.id = bid then some (.mk d cs) else findInList bid cs
termination_by structural b => b

/-- The `_find_in` loop over a children list. -/
def findInList (bid : String) : List Bookmark → Option Bookmark
  | [] => none
  | c :: rest =>
    match findInBM bid c with
    | some r => some r
    | none => findInList bid rest
termination_by structural l => l

end

/-- `find_by_id` over the roots mapping: each root's own id is checked
before its subtree. -/
def findRoots (bid : String) : List (String × Bookmark) → Option Bookmark
  | [] => none
  | (_, r) :: rest =>
    match findInBM bid r with
    | some x => some x
    | none => findRoots bid rest

/-- `BookmarkStore.find_by_id`. -/
def BookmarkStore.find_by_id (store : BookmarkStore) (bid : String) : Option Bookmark :=
  findRoots bid store.roots

mutual

/-- Append `c` as last child of the first depth-first node whose id is
`pid`, bumping that node's `date_modified`; the flag reports whether the
node was found.  This is the tree-rebuilding image of
`parent.children.append` after `find_by_id`. -/
def appendInBM (pid : String) (c : Bookmark) (now : String) : Bookmark → Bookmark × Bool
  | .mk d cs =>
    if d.id = pid then (.mk { d with date_modified := now } (cs ++ [c]), true)
    else
      let x := appendInList pid c now cs
      (.mk d x.1, x.2)
termination_by structural b => b

/-- List part of `appendInBM`, visiting children in `find_by_id` order. -/
def appendInList (pid : String) (c : Bookmark) (now : String) : List Bookmark → List Bookmark × Bool
  | [] => ([], false)
  | b :: rest =>
    let x := appendInBM pid c now b
    if x.2 then (x.1 :: rest, true)
    else
      let y := appendInList pid c now rest
      (b :: y.1, y.2)
termination_by structural l => l

end

/-- `appendInBM` lifted to the roots mapping, in `find_by_id` root order. -/
def appendRoots (pid : String) (c : Bookmark) (now : String) : List (String × Bookmark) → List (String × Bookmark) × Bool
  | [] => ([], false)
  | (n, r) :: rest =>
    let x := appendInBM pid c now r
    if x.2 then ((n, x.1) :: rest, true)
    else
      let y := appendRoots pid c now rest
      ((n, r) :: y.1, y.2)

/-- The fallback branch of `add`: append under the named root folder (a
no-op returning the bookmark unchanged when the name is absent). -/
def addToRoot (store : BookmarkStore) (bm : Bookmark) (root : String) (now : String) : BookmarkStore × Bookmark :=
  match rootsGet store.roots root with
  | some rf =>
    let bm' := bm.withParentPos (some rf.data.id) rf.children.length
    match rf with
    | .mk d cs =>
      ({ store with roots := rootsSet root (.mk { d with date_modified := now } (cs ++ [bm'])) store.roots }, bm')
  | none => (store, bm)

/-- `BookmarkStore.add(bookmark, parent_id, root)`: if `parent_id` is
truthy and resolves to an existing folder, append there; otherwise fall
back to the named root. -/
def BookmarkStore.add (store : BookmarkStore) (bm : Bookmark) (parent_id : Option String) (root : String) (now : String) : BookmarkStore × Bookmark :=
  if strTruthy parent_id then
    match store.find_by_id (parent_id.getD "") with
    | some parent =>
      if parent.data.type = .folder then
        let bm' := bm.withParentPos parent_id parent.children.length
        let x := appendRoots (parent_id.getD "") bm' now store.roots
        ({ store with roots := x.1 }, bm')
      else addToRoot store bm root now
    | none => addToRoot store bm root now
  else addToRoot store bm root now

/-- Re-number a sibling list from `i` upwards (`for j, c in enumerate: c.position = j`). -/
def reindexFrom (i : Nat) : List Bookmark → List Bookmark
  | [] => []
  | .mk d cs :: rest => .mk { d with position := i } cs :: reindexFrom (i + 1) rest

mutual

/-- `_remove_from(parent, id)`: remove the first depth-first node with the
given id from the parent's subtree, re-indexing and stamping the direct
parent of the removed node.  Returns the removed subtree and the rebuilt
parent. -/
def removeInBM (bid : String) (now : String) : Bookmark → Option (Bookmark × Bookmark)
  | .mk d cs =>
    match removeScan bid now cs with
    | none => none
    | some (r, cs', atLvl) =>
      if atLvl then some (r, .mk { d with date_modified := now } (reindexFrom 0 cs'))
      else some (r, .mk d cs')
termination_by structural b => b

/-- The `_remove_from` loop: check each child's id, else recurse into it;
the flag reports removal at this sibling level (so the caller re-indexes). -/
def removeScan (bid : String) (now : String) : List Bookmark → Option (Bookmark × List Bookmark × Bool)
  | [] => none
  | c :: rest =>
    if c.data.id = bid then some (c, rest, true)
    else
      match removeInBM bid now c with
      | some (r, c') => some (r, c' :: rest, false)
      | none =>
        match removeScan bid now rest with
        | some (r, rest', atLvl) => some (r, c :: rest', atLvl)
        | none => none
termination_by structural l => l

end

/-- `remove` over the roots mapping, in `roots.values()` order. -/
def removeRoots (bid : String) (now : String) : List (String × Bookmark) → Option (Bookmark × List (String × Bookmark))
  | [] => none
  | (n, r) :: rest =>
    match removeInBM bid now r with
    | some (rm, r') => some (rm, (n, r') :: rest)
    | none =>
      match removeRoots bid now rest with
      | some (rm, rest') => some (rm, (n, r) :: rest')
      | none => none

/-- `BookmarkStore.remove(bookmark_id)`. -/
def BookmarkStore.remove (store : BookmarkStore) (bid : String) (now : String) : Option Bookmark × BookmarkStore :=
  match removeRoots bid now store.roots with
  | some (rm, roots') => (some rm, { store with roots := roots' })
  | none => (none, store)

mutual

/-- Insert `c` at index `pos` of the children of the first depth-first
node whose id is `pid`, re-indexing the whole sibling list and stamping
the parent (the reinsertion step of `move`). -/
def insertInBM (pid : String) (c : Bookmark) (pos : Nat) (now : String) : Bookmark → Bookmark × Bool
  | .mk d cs =>
    if d.id = pid then
      (.mk { d with date_modified := now } (reindexFrom 0 (cs.insertIdx pos c)), true)
    else
      let x := insertInList pid c pos now cs
      (.mk d x.1, x.2)
termination_by structural b => b

/-- List part of `insertInBM`. -/
def insertInList (pid : String) (c : Bookmark) (pos : Nat) (now : String) : List Bookmark → List Bookmark × Bool
  | [] => ([], false)
  | b :: rest =>
    let x := insertInBM pid c pos now b
    if x.2 then (x.1 :: rest, true)
    else
      let y := insertInList pid c pos now rest
      (b :: y.1, y.2)
termination_by structural l => l

end

/-- `insertInBM` lifted to the roots mapping. -/
def insertRoots (pid : String) (c : Bookmark) (pos : Nat) (now : String) : List (String × Bookmark) → List (String × Bookmark) × Bool
  | [] => ([], false)
  | (n, r) :: rest =>
    let x := insertInBM pid c pos now r
    if x.2 then ((n, x.1) :: rest, true)
    else
      let y := insertRoots pid c pos now rest
      ((n, r) :: y.1, y.2)

/-- `BookmarkStore.move(bookmark_id, new_parent_id, position)`: remove,
then reinsert under the new parent; the removal is not rolled back when
the new parent does not resolve to a folder. -/
def BookmarkStore.move (store : BookmarkStore) (bid : String) (npid : String) (position : Int) (now : String) : Bool × BookmarkStore :=
  let x := store.remove bid now
  match x.1 with
  | none => (false, x.2)
  | some bm =>
    let s1 := x.2
    match s1.find_by_id npid with
    | none => (false, s1)
    | some np =>
      if np.data.type = .folder then
        let bm' := bm.withParent (some npid)
        let pos : Nat :=
          if position < 0 ∨ (np.children.length : Int) < position then np.children.length
          else position.toNat
        let y := insertRoots npid bm' pos now s1.roots
        (true, { s1 with roots := y.1 })
      else (false, s1)

mutual

/-- `_collect_all` applied to one child: the child itself, then its
subtree, in pre-order. -/
def collectBM : Bookmark → List Bookmark
  | .mk d cs => .mk d cs :: collectL cs
termination_by structural b => b

/-- `_collect_all` over a children list. -/
def collectL : List Bookmark → List Bookmark
  | [] => []
  | c :: rest => collectBM c ++ collectL rest
termination_by structural l => l

end

/-- `BookmarkStore.all_bookmarks()`: every non-root node, pre-order. -/
def BookmarkStore.all_bookmarks (store : BookmarkStore) : List Bookmark :=
  store.roots.flatMap (fun e => collectL e.2.children)

mutual

/-- `_find_url_in` applied to one child: the child's own match (URL nodes
whose normalised url equals the target), then its subtree.  `none` models
the `ValueError` `normalize_url` can raise mid-traversal. -/
def findUrlBM (target : String) : Bookmark → Option (List Bookmark)
  | .mk d cs =>
    let selfMatch : Option (List Bookmark) :=
      if d.type = .url then
        match normalize_url d.url with
        | none => none
        | some nu => some (if nu = target then [.mk d cs] else [])
      else some []
    match selfMatch, findUrlL target cs with
    | some a, some b => some (a ++ b)
    | _, _ => none
termination_by structural b => b

/-- `_find_url_in` over a children list. -/
def findUrlL (target : String) : List Bookmark → Option (List Bookmark)
  | [] => some []
  | c :: rest =>
    match findUrlBM target c, findUrlL target rest with
    | some a, some b => some (a ++ b)
    | _, _ => none
termination_by structural l => l

end

/-- `BookmarkStore.find_by_url(url)`: all matches in depth-first order
across the roots. -/
def BookmarkStore.find_by_url (store : BookmarkStore) (url : String) : Option (List Bookmark) :=
  match normalize_url url with
  | none => none
  | some target =>
    let rec go : List (String × Bookmark) → Option (List Bookmark)
      | [] => some []
      | (_, r) :: rest =>
        match findUrlL target r.children, go rest with
        | some a, some b => some (a ++ b)
        | _, _ => none
    go store.roots

mutual

/-- Overwrite title and `date_modified` on the first depth-first URL node
matching the normalised target — the in-place mutation of
`existing[0]` in `execute_sync`'s UPDATE_STORE branch.  A node whose url
fails to normalise is treated as a non-match; the source would already
have raised inside `find_by_url`, which guards every use of this
function. -/
def rwUrlBM (target title dmod : String) : Bookmark → Bookmark × Bool
  | .mk d cs =>
    if d.type = .url ∧ normalize_url d.url = some target then
      (.mk { d with title := title, date_modified := dmod } cs, true)
    else
      let x := rwUrlL target title dmod cs
      (.mk d x.1, x.2)
termination_by structural b => b

/-- List part of `rwUrlBM`, in `find_by_url` traversal order. -/
def rwUrlL (target title dmod : String) : List Bookmark → List Bookmark × Bool
  | [] => ([], false)
  | c :: rest =>
    let x := rwUrlBM target title dmod c
    if x.2 then (x.1 :: rest, true)
    else
      let y := rwUrlL target title dmod rest
      (c :: y.1, y.2)
termination_by structural l => l

end

/-- `rwUrlBM` lifted to the roots mapping (roots themselves are folders
and are not checked, as in `_find_url_in`). -/
def rwUrlRoots (target title dmod : String) : List (String × Bookmark) → List (String × Bookmark)
  | [] => []
  | (n, r) :: rest =>
    let x := rwUrlL target title dmod r.children
    if x.2 then (n, .mk r.data x.1) :: rest
    else (n, r) :: rwUrlRoots target title dmod rest

/-- The whole UPDATE_STORE mutation: rewrite the first match of the
normalised url. -/
def rewriteFirstUrl (store : BookmarkStore) (url title dmod : String) : BookmarkStore :=
  match normalize_url url with
  | none => store
  | some t => { store with roots := rwUrlRoots t title dmod store.roots }

/-! ## Invariant observations used by the claims -/

mutual

/-- Positions are contiguous `0..n-1` in every sibling list of the
subtree. -/
def posOkBM : Bookmark → Bool
  | .mk _ cs => posOkList 0 cs
termination_by structural b => b

/-- Positions of a sibling list match `i, i+1, ...` and all subtrees are
well-positioned. -/
def posOkList (i : Nat) : List Bookmark → Bool
  | [] => true
  | c :: rest => c.data.position = i && posOkBM c && posOkList (i + 1) rest
termination_by structural l => l

end

/-- Every sibling list in the store is contiguously positioned. -/
def posOkStore (store : BookmarkStore) : Bool :=
  store.roots.all (fun e => posOkBM e.2)

mutual

/-- All ids in a subtree (the node itself included). -/
def idsBM : Bookmark → List String
  | .mk d cs => d.id :: idsL cs
termination_by structural b => b

/-- All ids of a list of subtrees. -/
def idsL : List Bookmark → List String
  | [] => []
  | c :: rest => idsBM c ++ idsL rest
termination_by structural l => l

end

/-- Ids of every non-root node of the store. -/
def descIds (store : BookmarkStore) : List String :=
  store.roots.flatMap (fun e => idsL e.2.children)

/-- Ids of every node of the store, roots included. -/
def allIds (store : BookmarkStore) : List String :=
  store.roots.flatMap (fun e => idsBM e.2)

mutual

/-- Number of nodes in a subtree. -/
def bsizeBM : Bookmark → Nat
  | .mk _ cs => 1 + bsizeL cs
termination_by structural b => b

/-- Number of nodes in a list of subtrees. -/
def bsizeL : List Bookmark → Nat
  | [] => 0
  | c :: rest => bsizeBM c + bsizeL rest
termination_by structural l => l

end

/-- Number of non-root nodes in the store. -/
def storeSize (store : BookmarkStore) : Nat :=
  (store.roots.map (fun e => bsizeL e.2.children)).sum

/-! ## The bidirectional sync engine (operations/sync.py) -/

/-- The sync action vocabulary (`SyncActionType`): exactly four values,
none of them a delete. -/
inductive SyncActionType where
  | add_to_store
  | update_store
  | add_to_browser
  | update_browser
deriving DecidableEq, Repr

/-- A planned sync action. -/
structure SyncAction where
  action : SyncActionType
  bookmark : Bookmark
  root_name : String
  parent_title : String
  description : String

mutual

/-- `_collect_url_bookmarks` applied to one child: URL children are
collected with the parent folder path, folder children extend the path
and recurse. -/
def collectUrlBM (root_name path : String) : Bookmark → List (Bookmark × String × String)
  | .mk d cs =>
    if d.type = .url then [(.mk d cs, root_name, path)]
    else collectUrlL root_name (if path = "" then d.title else path ++ "/" ++ d.title) cs
termination_by structural b => b

/-- `_collect_url_bookmarks` over a children list. -/
def collectUrlL (root_name path : String) : List Bookmark → List (Bookmark × String × String)
  | [] => []
  | c :: rest => collectUrlBM root_name path c ++ collectUrlL root_name path rest
termination_by structural l => l

end

/-- Insert-or-replace in an insertion-ordered association list, the
update semantics of a Python dict (`d[k] = v` keeps the original slot). -/
def upsert {κ ν : Type} [DecidableEq κ] (k : κ) (v : ν) : List (κ × ν) → List (κ × ν)
  | [] => [(k, v)]
  | (k', v') :: rest => if k' = k then (k, v) :: rest else (k', v') :: upsert k v rest

/-- `dict.get(k)` on an association list. -/
def alistGet {κ ν : Type} [DecidableEq κ] (l : List (κ × ν)) (k : κ) : Option ν :=
  (l.find? (fun e => e.1 = k)).map (fun e => e.2)

/-- Fold the collected URL bookmarks into the
`(normalized_url, root_name, path)`-keyed dict of `_build_lookup`;
`none` models the `ValueError` `normalize_url` can raise. -/
def buildLookupAux (items : List (Bookmark × String × String))
    (acc : List ((String × String × String) × Bookmark)) :
    Option (List ((String × String × String) × Bookmark)) :=
  match items with
  | [] => some acc
  | (bm, rn, path) :: rest =>
    match normalize_url bm.data.url with
    | none => none
    | some nu => buildLookupAux rest (upsert (nu, rn, path) bm acc)

/-- `_build_lookup(store)`. -/
def buildLookup (store : BookmarkStore) : Option (List ((String × String × String) × Bookmark)) :=
  buildLookupAux (store.roots.flatMap (fun e => collectUrlL e.1 "" e.2.children)) []

/-- `_build_source_lookup(store)`: `(source_browser, source_id)`-keyed over
all bookmarks with both fields truthy. -/
def buildSourceLookupAux (items : List Bookmark)
    (acc : List ((String × String) × Bookmark)) : List ((String × String) × Bookmark) :=
  match items with
  | [] => acc
  | bm :: rest =>
    if strTruthy bm.data.source_browser ∧ strTruthy bm.data.source_id then
      buildSourceLookupAux rest
        (upsert (bm.data.source_browser.getD "", bm.data.source_id.getD "") bm acc)
    else buildSourceLookupAux rest acc

/-- `_build_source_lookup(store)`. -/
def buildSourceLookup (store : BookmarkStore) : List ((String × String) × Bookmark) :=
  buildSourceLookupAux store.all_bookmarks []

/-- Result triple of `plan_sync`. -/
structure PlanResult where
  actions : List SyncAction
  browser_store : Option BookmarkStore
  error : Option String

/-- `plan_sync(store, browser_name)`.  The browser read and
`datetime.fromisoformat` are injected (`browserRead`, `parseDate`, with
`parseDate _ = none` modelling an unparsable date); the outer `none`
models a `ValueError` escaping from `normalize_url`.  Cosmetic quote
characters of the human-readable descriptions are elided. -/
def plan_sync (parseDate : String → Option Int) (store : BookmarkStore)
    (browser_name : String) (browserRead : Option BookmarkStore) : Option PlanResult :=
  match browserRead with
  | none => some ⟨[], none, some ("Could not read bookmarks from " ++ browser_name)⟩
  | some browser_store =>
    match buildLookup store, buildLookup browser_store with
    | some store_lookup, some browser_lookup =>
      let store_source_lookup := buildSourceLookup store
      let loop1 := browser_lookup.flatMap (fun kv =>
        let browser_bm := kv.2
        let existing0 : Option Bookmark :=
          if strTruthy browser_bm.data.source_id then
            alistGet store_source_lookup (browser_name, browser_bm.data.source_id.getD "")
          else none
        let existing : Option Bookmark :=
          match existing0 with
          | some e => some e
          | none => alistGet store_lookup kv.1
        match existing with
        | none =>
          [⟨.add_to_store, browser_bm, kv.1.2.1, kv.1.2.2,
            "Add " ++ browser_bm.data.title ++ " to store from " ++ browser_name⟩]
        | some ex =>
          match parseDate browser_bm.data.date_modified, parseDate ex.data.date_modified with
          | some bmod, some smod =>
            if smod < bmod then
              [⟨.update_store, browser_bm, kv.1.2.1, kv.1.2.2,
                "Update " ++ browser_bm.data.title ++ " in store, newer in " ++ browser_name⟩]
            else []
          | _, _ => [])
      let loop2 := store_lookup.flatMap (fun kv =>
        if (alistGet browser_lookup kv.1).isNone then
          [⟨.add_to_browser, kv.2, kv.1.2.1, kv.1.2.2,
            "Add " ++ kv.2.data.title ++ " to " ++ browser_name ++ " from store"⟩]
        else [])
      some ⟨loop1 ++ loop2, some browser_store, none⟩
    | _, _ => none

/-- `str.split("/")` on a character list. -/
def splitSlashAux : List Char → List (List Char)
  | [] => [[]]
  | c :: rest =>
    if c = '/' then [] :: splitSlashAux rest
    else
      match splitSlashAux rest with
      | h :: t => (c :: h) :: t
      | [] => [[c]]

/-- `str.split("/")`. -/
def splitSlash (s : String) : List String :=
  (splitSlashAux s.data).map String.mk

/-- The find-or-create folder walk shared by sync's
`_add_to_store_at_path` and store_export's `_ensure_folder_path`: walk
`parts` from the node with id `curId`, descending into the first
same-titled child folder or creating one via `store.add`.  Returns the
store, the id of the final folder, and the fresh-id counter. -/
def ensurePathLoop (now : String) (mkId : Nat → String) :
    List String → BookmarkStore → String → Nat → BookmarkStore × String × Nat
  | [], store, curId, ctr => (store, curId, ctr)
  | part :: rest, store, curId, ctr =>
    match store.find_by_id curId with
    | none => (store, curId, ctr)
    | some cur =>
      match cur.children.find? (fun ch => ch.data.type = BookmarkType.folder ∧ ch.data.title = part) with
      | some found => ensurePathLoop now mkId rest store found.data.id ctr
      | none =>
        let nf : Bookmark :=
          .mk { id := mkId ctr, type := .folder, title := part, url := "",
                parent_id := none, position := 0, date_added := now,
                date_modified := now, preferred_browser := none,
                source_browser := none, source_id := none } []
        let store' := (store.add nf (some cur.data.id) "bookmark_bar" now).1
        ensurePathLoop now mkId rest store' (mkId ctr) (ctr + 1)

/-- `_add_to_store_at_path(store, bookmark, root_name, parent_path)`. -/
def addToStoreAtPath (store : BookmarkStore) (bm : Bookmark)
    (root_name parent_path now : String) (mkId : Nat → String) (ctr : Nat) :
    BookmarkStore × Nat :=
  match rootsGet store.roots root_name with
  | none => (store, ctr)
  | some root =>
    if parent_path = "" then
      ((store.add bm (some root.data.id) "bookmark_bar" now).1, ctr)
    else
      let parts := splitSlash parent_path
      let x := ensurePathLoop now mkId parts store root.data.id ctr
      ((x.1.add bm (some x.2.1) "bookmark_bar" now).1, x.2.2)

/-- Whether an action is browser-directed. -/
def isBrowserDirected (a : SyncAction) : Bool :=
  a.action = SyncActionType.add_to_browser ∨ a.action = SyncActionType.update_browser

/-- The store-side phase of `execute_sync`: apply ADD_TO_STORE and
UPDATE_STORE actions in order, counting changes; `none` models a
`ValueError` from `normalize_url` inside `find_by_url`. -/
def applyActions (browser_name now : String) (mkId : Nat → String) :
    List SyncAction → BookmarkStore → Nat → Nat → Option (BookmarkStore × Nat × Nat)
  | [], store, changes, ctr => some (store, changes, ctr)
  | a :: rest, store, changes, ctr =>
    match a.action with
    | .add_to_store =>
      let new_bm : Bookmark :=
        .mk { id := mkId ctr, type := a.bookmark.data.type,
              title := a.bookmark.data.title, url := a.bookmark.data.url,
              parent_id := none, position := 0,
              date_added := a.bookmark.data.date_added,
              date_modified := a.bookmark.data.date_modified,
              preferred_browser := none, source_browser := some browser_name,
              source_id := a.bookmark.data.source_id } []
      let x := addToStoreAtPath store new_bm a.root_name a.parent_title now mkId (ctr + 1)
      applyActions browser_name now mkId rest x.1 (changes + 1) x.2
    | .update_store =>
      match store.find_by_url a.bookmark.data.url with
      | none => none
      | some [] => applyActions browser_name now mkId rest store changes ctr
      | some (_ :: _) =>
        let store' := rewriteFirstUrl store a.bookmark.data.url
          a.bookmark.data.title a.bookmark.data.date_modified
        applyActions browser_name now mkId rest store' (changes + 1) ctr
    | .add_to_browser => applyActions browser_name now mkId rest store changes ctr
    | .update_browser => applyActions browser_name now mkId rest store changes ctr

/-- What `execute_sync` returns and does: the final store, the
`(store_changes, browser_changes, error)` triple, whether
`_write_browser` was invoked, and whether `store.save()` ran. -/
structure ExecResult where
  store : BookmarkStore
  store_changes : Nat
  browser_changes : Nat
  error : Option String
  browser_written : Bool
  store_saved : Bool

/-- `execute_sync(store, browser_name, actions)`.  External effects are
injected: `browserRunning` is `is_browser_running(procs)` at execute
time, `writeOk` the success of `_write_browser`, `mkId` the uuid source,
`now` the clock.  `none` models an escaping `ValueError`. -/
def execute_sync (store : BookmarkStore) (browser_name : String)
    (actions : List SyncAction) (browserRunning writeOk : Bool)
    (mkId : Nat → String) (now : String) : Option ExecResult :=
  match applyActions browser_name now mkId actions store 0 0 with
  | none => none
  | some (store1, store_changes, _) =>
    let browser_needs_write := actions.any isBrowserDirected
    let r : Nat × Option String × Bool :=
      if browser_needs_write then
        if browserRunning then
          (0, some (browser_name ++ " is running. Browser changes not applied."), false)
        else if writeOk then
          ((actions.filter isBrowserDirected).length, none, true)
        else (0, some ("Failed to write to " ++ browser_name), true)
      else (0, none, false)
    let saved := 0 < store_changes
    let store2 := if saved then { store1 with last_modified := now } else store1
    some ⟨store2, store_changes, r.1, r.2.1, r.2.2, saved⟩

/-! ## The import engine (operations/importer.py) -/

/-- `_dedup_key(bookmark, parent_path)`: `normalized_url|path`; `none`
models the `ValueError` `normalize_url` can raise. -/
def dedupKey (url parent_path : String) : Option String :=
  (normalize_url url).map (fun nu => nu ++ "|" ++ parent_path)

mutual

/-- `_collect_with_paths` applied to one child (shared verbatim between
operations/importer.py and operations/store_export.py): URL children are
collected with their folder path, folder children recurse with the path
extended. -/
def collectWPBM (root_name path : String) : Bookmark → List (Bookmark × String)
  | .mk d cs =>
    if d.type = .url then
      [(.mk d cs, if path = "" then root_name else root_name ++ "/" ++ path)]
    else collectWPL root_name (if path = "" then d.title else path ++ "/" ++ d.title) cs
termination_by structural b => b

/-- `_collect_with_paths` over a children list. -/
def collectWPL (root_name path : String) : List Bookmark → List (Bookmark × String)
  | [] => []
  | c :: rest => collectWPBM root_name path c ++ collectWPL root_name path rest
termination_by structural l => l

end

/-- Build the dedup key set of the store's current contents (the
`existing_keys` set; a list used for membership only). -/
def buildKeys : List (Bookmark × String) → List String → Option (List String)
  | [], acc => some acc
  | (bm, path) :: rest, acc =>
    match dedupKey bm.data.url path with
    | none => none
    | some k => buildKeys rest (k :: acc)

/-- First child folder with the given exact title, split out of the
sibling list (the `for child in store_parent.children` scan). -/
def findFolderSplit (title : String) : List Bookmark → Option (List Bookmark × Bookmark × List Bookmark)
  | [] => none
  | c :: rest =>
    if c.data.type = BookmarkType.folder ∧ c.data.title = title then some ([], c, rest)
    else (findFolderSplit title rest).map (fun x => (c :: x.1, x.2.1, x.2.2))

mutual

/-- `_import_children` applied to one browser child against the store
parent subtree.  Returns the rebuilt store parent, the added and skipped
counts, the grown key set, and the fresh-id counter; `none` models a
`ValueError` from `normalize_url`.  The source appends through
`store.add(new, parent_id=store_parent.id)`; per the unique-id invariant
this lands on `store_parent` itself, modelled as a direct append. -/
def importBM (bn rn now : String) (mkId : Nat → String) :
    Bookmark → Bookmark → String → List String → Nat →
    Option (Bookmark × Nat × Nat × List String × Nat)
  | .mk d cs, store_parent, parent_path, keys, ctr =>
    if d.type = .folder then
      let child_path := if parent_path = "" then d.title else parent_path ++ "/" ++ d.title
      match findFolderSplit d.title store_parent.children with
      | some (before, ef, after) =>
        match importL bn rn now mkId cs ef child_path keys ctr with
        | none => none
        | some (ef', a, s, keys', ctr') =>
          some (.mk store_parent.data (before ++ ef' :: after), a, s, keys', ctr')
      | none =>
        let nf : Bookmark :=
          .mk { id := mkId ctr, type := .folder, title := d.title, url := "",
                parent_id := some store_parent.data.id,
                position := store_parent.children.length,
                date_added := d.date_added, date_modified := d.date_modified,
                preferred_browser := none, source_browser := some bn,
                source_id := d.source_id } []
        match importL bn rn now mkId cs nf child_path keys (ctr + 1) with
        | none => none
        | some (nf', a, s, keys', ctr') =>
          some (.mk { store_parent.data with date_modified := now }
                  (store_parent.children ++ [nf']), 1 + a, s, keys', ctr')
    else
      match dedupKey d.url (if parent_path = "" then rn else rn ++ "/" ++ parent_path) with
      | none => none
      | some k =>
        if k ∈ keys then some (store_parent, 0, 1, keys, ctr)
        else
          let nb : Bookmark :=
            .mk { id := mkId ctr, type := .url, title := d.title, url := d.url,
                  parent_id := some store_parent.data.id,
                  position := store_parent.children.length,
                  date_added := d.date_added, date_modified := d.date_modified,
                  preferred_browser := none, source_browser := some bn,
                  source_id := d.source_id } []
          some (.mk { store_parent.data with date_modified := now }
                  (store_parent.children ++ [nb]), 1, 0, k :: keys, ctr + 1)
termination_by structural b => b

/-- `_import_children` over a browser children list, threading the store
parent, counters, key set, and fresh-id counter left to right. -/
def importL (bn rn now : String) (mkId : Nat → String) :
    List Bookmark → Bookmark → String → List String → Nat →
    Option (Bookmark × Nat × Nat × List String × Nat)
  | [], parent, _, keys, ctr => some (parent, 0, 0, keys, ctr)
  | c :: rest, parent, path, keys, ctr =>
    match importBM bn rn now mkId c parent path keys ctr with
    | none => none
    | some (parent', a1, s1, keys1, ctr1) =>
      match importL bn rn now mkId rest parent' path keys1 ctr1 with
      | none => none
      | some (parent'', a2, s2, keys2, ctr2) =>
        some (parent'', a1 + a2, s1 + s2, keys2, ctr2)
termination_by structural l => l

end

/-- One root's step of `import_from_browser`: run `_import_children` on
the root's children when both sides have the root. -/
def importRoot (bn now : String) (mkId : Nat → String) (browser_store : BookmarkStore)
    (root_name : String) (st : BookmarkStore × Nat × Nat × List String × Nat) :
    Option (BookmarkStore × Nat × Nat × List String × Nat) :=
  match rootsGet browser_store.roots root_name with
  | none => some st
  | some broot =>
    match rootsGet st.1.roots root_name with
    | none => some st
    | some sroot =>
      match importL bn root_name now mkId broot.children sroot "" st.2.2.2.1 st.2.2.2.2 with
      | none => none
      | some (sroot', a, s, keys', ctr') =>
        some ({ st.1 with roots := rootsSet root_name sroot' st.1.roots },
              st.2.1 + a, st.2.2.1 + s, keys', ctr')

/-- `import_from_browser(browser_name, store)`: build the dedup set from
the current store, then import the `bookmark_bar` and `other` roots in
order.  The browser read is injected; `none` models an escaping
`ValueError`. -/
def import_from_browser (browser_name : String) (store : BookmarkStore)
    (browserRead : Option BookmarkStore) (now : String) (mkId : Nat → String)
    (ctr : Nat) : Option (BookmarkStore × Nat × Nat × Option String) :=
  match browserRead with
  | none => some (store, 0, 0, some ("Could not read bookmarks from " ++ browser_name))
  | some browser_store =>
    match buildKeys (store.roots.flatMap (fun e => collectWPL e.1 "" e.2.children)) [] with
    | none => none
    | some keys0 =>
      match importRoot browser_name now mkId browser_store "bookmark_bar"
              (store, 0, 0, keys0, ctr) with
      | none => none
      | some st1 =>
        match importRoot browser_name now mkId browser_store "other" st1 with
        | none => none
        | some st2 => some (st2.1, st2.2.1, st2.2.2.1, none)

/-! ## Chrome checksum (operations/chrome.py) -/

/-- A node of Chrome's native JSON tree: `id`, `name`, `type` (a raw
string, anything but "folder" digests as a URL), `url`, `children`. -/
inductive ChromeNode where
  | mk (id name type url : String) (children : List ChromeNode)

/-- The id field. -/
def ChromeNode.id : ChromeNode → String
  | .mk i _ _ _ _ => i

/-- The `roots` mapping fed to `calculate_checksum`: the three fixed
subtrees. -/
structure ChromeRoots where
  bookmark_bar : ChromeNode
  other : ChromeNode
  synced : ChromeNode

/-- `str.encode("ascii")`, on its ASCII domain, as byte values. -/
def asciiB (s : String) : List Nat :=
  s.data.map Char.toNat

/-- One character under `str.encode("UTF-16-LE")`: little-endian code
unit, or a surrogate pair beyond the BMP. -/
def utf16Char (c : Char) : List Nat :=
  let n := c.toNat
  if n < 65536 then [n % 256, n / 256]
  else
    let m := n - 65536
    let hi := 55296 + m / 1024
    let lo := 56320 + m % 1024
    [hi % 256, hi / 256, lo % 256, lo / 256]

/-- `str.encode("UTF-16-LE")` as byte values. -/
def utf16leB (s : String) : List Nat :=
  s.data.flatMap utf16Char

mutual

/-- The `update_digest` recursion of `calculate_checksum`: the digest
state is the byte stream fed so far. -/
def updateDigestNode (acc : List Nat) : ChromeNode → List Nat
  | .mk i n t u cs =>
    if t = "folder" then
      updateDigestList (acc ++ asciiB i ++ utf16leB n ++ asciiB "folder") cs
    else acc ++ asciiB i ++ utf16leB n ++ asciiB "url" ++ asciiB u
termination_by structural c => c

/-- `update_digest` over a children list. -/
def updateDigestList (acc : List Nat) : List ChromeNode → List Nat
  | [] => acc
  | c :: rest => updateDigestList (updateDigestNode acc c) rest
termination_by structural l => l

end

/-- 32-bit modular addition. -/
def add32 (a b : Nat) : Nat := (a + b) % 4294967296

/-- 32-bit bitwise complement (the operand is below `2^32`). -/
def not32 (x : Nat) : Nat := 4294967295 - x

/-- 32-bit left rotation. -/
def rotl32 (x s : Nat) : Nat :=
  (((x <<< s) % 4294967296) ||| (x >>> (32 - s)))

/-- The 64 MD5 sine-table constants. -/
def md5K : List Nat :=
  [0xd76aa478, 0xe8c7b756, 0x242070db, 0xc1bdceee,
   0xf57c0faf, 0x4787c62a, 0xa8304613, 0xfd469501,
   0x698098d8, 0x8b44f7af, 0xffff5bb1, 0x895cd7be,
   0x6b901122, 0xfd987193, 0xa679438e, 0x49b40821,
   0xf61e2562, 0xc040b340, 0x265e5a51, 0xe9b6c7aa,
   0xd62f105d, 0x02441453, 0xd8a1e681, 0xe7d3fbc8,
   0x21e1cde6, 0xc33707d6, 0xf4d50d87, 0x455a14ed,
   0xa9e3e905, 0xfcefa3f8, 0x676f02d9, 0x8d2a4c8a,
   0xfffa3942, 0x8771f681, 0x6d9d6122, 0xfde5380c,
   0xa4beea44, 0x4bdecfa9, 0xf6bb4b60, 0xbebfbc70,
   0x289b7ec6, 0xeaa127fa, 0xd4ef3085, 0x04881d05,
   0xd9d4d039, 0xe6db99e5, 0x1fa27cf8, 0xc4ac5665,
   0xf4292244, 0x432aff97, 0xab9423a7, 0xfc93a039,
   0x655b59c3, 0x8f0ccc92, 0xffeff47d, 0x85845dd1,
   0x6fa87e4f, 0xfe2ce6e0, 0xa3014314, 0x4e0811a1,
   0xf7537e82, 0xbd3af235, 0x2ad7d2bb, 0xeb86d391]

/-- The 64 MD5 per-round rotation amounts. -/
def md5S : List Nat :=
  [7, 12, 17, 22, 7, 12, 17, 22, 7, 12, 17, 22, 7, 12, 17, 22,
   5, 9, 14, 20, 5, 9, 14, 20, 5, 9, 14, 20, 5, 9, 14, 20,
   4, 11, 16, 23, 4, 11, 16, 23, 4, 11, 16, 23, 4, 11, 16, 23,
   6, 10, 15, 21, 6, 10, 15, 21, 6, 10, 15, 21, 6, 10, 15, 21]

/-- Group bytes into little-endian 32-bit words. -/
def toWords : List Nat → List Nat
  | a :: b :: c :: d :: rest => (a + 256 * (b + 256 * (c + 256 * d))) :: toWords rest
  | _ => []

/-- One MD5 round on the `(a, b, c, d)` state. -/
def md5Round (msg : List Nat) (st : Nat × Nat × Nat × Nat) (i : Nat) : Nat × Nat × Nat × Nat :=
  let a := st.1
  let b := st.2.1
  let c := st.2.2.1
  let d := st.2.2.2
  let f :=
    if i < 16 then (b &&& c) ||| (not32 b &&& d)
    else if i < 32 then (d &&& b) ||| (not32 d &&& c)
    else if i < 48 then b ^^^ c ^^^ d
    else c ^^^ (b ||| not32 d)
  let g :=
    if i < 16 then i
    else if i < 32 then (5 * i + 1) % 16
    else if i < 48 then (3 * i + 5) % 16
    else (7 * i) % 16
  let v := add32 (add32 (add32 f a) (md5K.getD i 0)) (msg.getD g 0)
  (d, add32 b (rotl32 v (md5S.getD i 0)), b, c)

/-- Process one 64-byte block. -/
def md5Block (st : Nat × Nat × Nat × Nat) (block : List Nat) : Nat × Nat × Nat × Nat :=
  let msg := toWords block
  let e := (List.range 64).foldl (md5Round msg) st
  (add32 st.1 e.1, add32 st.2.1 e.2.1, add32 st.2.2.1 e.2.2.1, add32 st.2.2.2 e.2.2.2)

/-- Little-endian byte expansion of a number, `k` bytes wide. -/
def leBytes : Nat → Nat → List Nat
  | 0, _ => []
  | k + 1, n => (n % 256) :: leBytes k (n / 256)

/-- MD5 padding: `0x80`, zeros to 56 mod 64, the bit length (64-bit
little-endian). -/
def padMsg (bs : List Nat) : List Nat :=
  let len := bs.length
  let padLen := (56 + 64 - (len + 1) % 64) % 64
  bs ++ [128] ++ List.replicate padLen 0 ++ leBytes 8 ((len * 8) % (2 ^ 64))

/-- Split into 64-byte blocks. -/
def splitBlocks (bs : List Nat) : List (List Nat) :=
  if he : bs = [] then []
  else bs.take 64 :: splitBlocks (bs.drop 64)
termination_by bs.length
decreasing_by
  simp only [List.length_drop]
  have : 0 < bs.length := List.length_pos.mpr he
  omega

/-- One hex digit. -/
def hexDigit (n : Nat) : Char :=
  "0123456789abcdef".data.getD n '0'

/-- Lowercase hex of one 32-bit word, little-endian byte order as in
`hexdigest`. -/
def hexLE (w : Nat) : String :=
  String.mk ((leBytes 4 w).flatMap (fun b => [hexDigit (b / 16), hexDigit (b % 16)]))

/-- `hashlib.md5(bytes).hexdigest()`. -/
def md5hex (bs : List Nat) : String :=
  let st := (splitBlocks (padMsg bs)).foldl md5Block
    (0x67452301, 0xefcdab89, 0x98badcfe, 0x10325476)
  hexLE st.1 ++ hexLE st.2.1 ++ hexLE st.2.2.1 ++ hexLE st.2.2.2

/-- `calculate_checksum(roots)`: MD5 over the digest stream of
`bookmark_bar`, `other`, `synced`, in that order. -/
def calculate_checksum (roots : ChromeRoots) : String :=
  md5hex (updateDigestNode (updateDigestNode (updateDigestNode [] roots.bookmark_bar)
    roots.other) roots.synced)

mutual

/-- The byte stream one node contributes to the checksum, stated as the
spec words it: a folder feeds id (ASCII), name (UTF-16-LE) and the
literal "folder" before its children in order; a URL feeds id, name, the
literal "url" and its url (ASCII); no delimiters. -/
def specNodeBytes : ChromeNode → List Nat
  | .mk i n t u cs =>
    if t = "folder" then asciiB i ++ utf16leB n ++ asciiB "folder" ++ specListBytes cs
    else asciiB i ++ utf16leB n ++ asciiB "url" ++ asciiB u
termination_by structural c => c

/-- Concatenated contributions of a children list. -/
def specListBytes : List ChromeNode → List Nat
  | [] => []
  | c :: rest => specNodeBytes c ++ specListBytes rest
termination_by structural l => l

end

/-- The whole digest input as the spec words it. -/
def specChecksumBytes (roots : ChromeRoots) : List Nat :=
  specNodeBytes roots.bookmark_bar ++ specNodeBytes roots.other ++ specNodeBytes roots.synced

/-! ## Store file import/export (operations/store_export.py) -/

/-- Import mode for JSON import. -/
inductive ImportMode where
  | overwrite
  | merge
deriving DecidableEq, Repr

/-- Resolution choice for import conflicts. -/
inductive ConflictResolution where
  | keep_existing
  | use_imported
deriving DecidableEq, Repr

/-- A conflict between an existing and an imported bookmark. -/
structure MergeConflict where
  existing_bookmark : Bookmark
  imported_bookmark : Bookmark
  folder_path : String
  resolution : Option ConflictResolution

/-- The preview `execute_import` works from (the source path is modelled
by the injected reload result). -/
structure ImportPreview where
  bookmarks_to_add : List (Bookmark × String)
  conflicts : List MergeConflict

/-- `_ensure_folder_path(store, folder_path)`: split the path, resolve
the root, then find-or-create the folder chain; returns the final
folder's id. -/
def ensureFolderPath (store : BookmarkStore) (folder_path now : String)
    (mkId : Nat → String) (ctr : Nat) : BookmarkStore × Option String × Nat :=
  match splitSlash folder_path with
  | [] => (store, none, ctr)
  | root_name :: restParts =>
    match rootsGet store.roots root_name with
    | none => (store, none, ctr)
    | some root =>
      let x := ensurePathLoop now mkId restParts store root.data.id ctr
      (x.1, some x.2.1, x.2.2)

/-- The MERGE-mode addition loop of `execute_import`. -/
def mergeAdds (now : String) (mkId : Nat → String) :
    List (Bookmark × String) → BookmarkStore → Nat → Nat → BookmarkStore × Nat × Nat
  | [], store, added, ctr => (store, added, ctr)
  | (ibm, fp) :: rest, store, added, ctr =>
    let x := ensureFolderPath store fp now mkId ctr
    match x.2.1 with
    | none => mergeAdds now mkId rest x.1 added x.2.2
    | some pid =>
      let nb : Bookmark :=
        .mk { id := mkId x.2.2, type := .url, title := ibm.data.title,
              url := ibm.data.url, parent_id := none, position := 0,
              date_added := ibm.data.date_added,
              date_modified := ibm.data.date_modified,
              preferred_browser := ibm.data.preferred_browser,
              source_browser := none, source_id := none } []
      mergeAdds now mkId rest ((x.1.add nb (some pid) "bookmark_bar" now).1)
        (added + 1) (x.2.2 + 1)

mutual

/-- Overwrite title, `date_modified` and (when truthy) the preferred
browser on the first depth-first node with the given id — the conflict
resolution mutation of `execute_import`. -/
def setConflictBM (bid title dmod : String) (pb : Option String) : Bookmark → Bookmark × Bool
  | .mk d cs =>
    if d.id = bid then
      (.mk { d with
              title := title,
              date_modified := dmod,
              preferred_browser := if strTruthy pb then pb else d.preferred_browser } cs, true)
    else
      let x := setConflictL bid title dmod pb cs
      (.mk d x.1, x.2)
termination_by structural b => b

/-- List part of `setConflictBM`, in `find_by_id` order. -/
def setConflictL (bid title dmod : String) (pb : Option String) : List Bookmark → List Bookmark × Bool
  | [] => ([], false)
  | b :: rest =>
    let x := setConflictBM bid title dmod pb b
    if x.2 then (x.1 :: rest, true)
    else
      let y := setConflictL bid title dmod pb rest
      (b :: y.1, y.2)
termination_by structural l => l

end

/-- `setConflictBM` lifted to the roots mapping. -/
def setConflictRoots (bid title dmod : String) (pb : Option String) : List (String × Bookmark) → List (String × Bookmark)
  | [] => []
  | (n, r) :: rest =>
    let x := setConflictBM bid title dmod pb r
    if x.2 then (n, x.1) :: rest
    else (n, r) :: setConflictRoots bid title dmod pb rest

/-- The MERGE-mode conflict loop of `execute_import`. -/
def mergeConflicts : List MergeConflict → BookmarkStore → Nat → BookmarkStore × Nat
  | [], store, updated => (store, updated)
  | c :: rest, store, updated =>
    if c.resolution = some ConflictResolution.use_imported then
      match store.find_by_id c.existing_bookmark.data.id with
      | some _ =>
        let roots' := setConflictRoots c.existing_bookmark.data.id
          c.imported_bookmark.data.title c.imported_bookmark.data.date_modified
          c.imported_bookmark.data.preferred_browser store.roots
        mergeConflicts rest { store with roots := roots' } (updated + 1)
      | none => mergeConflicts rest store updated
    else mergeConflicts rest store updated

/-- `execute_import(store, preview, mode)`.  The backup and the OVERWRITE
reload of the import file are injected as `Except` results; a backup
failure returns before any mutation. -/
def execute_import (store : BookmarkStore) (preview : ImportPreview)
    (mode : ImportMode) (backup : Except String Unit)
    (reload : Except String BookmarkStore) (now : String) (mkId : Nat → String) :
    BookmarkStore × Nat × Nat × Option String :=
  match backup with
  | .error e => (store, 0, 0, some ("Failed to create backup: " ++ e))
  | .ok _ =>
    match mode with
    | .overwrite =>
      match reload with
      | .error e => (store, 0, 0, some ("Failed to import: " ++ e))
      | .ok import_store =>
        let total := (import_store.roots.flatMap (fun e => collectWPL "" "" e.2.children)).length
        ({ store with
            roots := import_store.roots,
            version := import_store.version,
            last_modified := import_store.last_modified }, total, 0, none)
    | .merge =>
      let s1 := mergeAdds now mkId preview.bookmarks_to_add store 0 0
      let s2 := mergeConflicts preview.conflicts s1.1 0
      (s2.1, s1.2.1, s2.2, none)

/-! ## Auxiliary definitions and fixtures for the verification -/

def appendNode (p c : Bookmark) (now : String) : Bookmark :=
  .mk { p.data with date_modified := now } (p.children ++ [c])

/-- The delimiter characters whose presence `normalize_url` reasoning
tracks. -/
def specialChars : List Char := [':', '/', '?', '#', ';', '[', ']']

/-- The dedup keys of a flat browser children list, each keyed against the
root name (the `_dedup_key` values `_import_children` computes for a list
of URL children at the top level). -/
def urlKeys (rn : String) : List Bookmark → Option (List String)
  | [] => some []
  | c :: rest =>
    match dedupKey c.data.url rn, urlKeys rn rest with
    | some k, some ks => some (k :: ks)
    | _, _ => none

/-- The nodes `_import_children` creates for a flat list of fresh URL
bookmarks appended under a parent with the given id, starting at the
given position and fresh-id counter. -/
def mkNodes (bn : String) (mkId : Nat → String) (pid : String) :
    List Bookmark → Nat → Nat → List Bookmark
  | [], _, _ => []
  | c :: rest, pos, ctr =>
    Bookmark.mk { id := mkId ctr, type := .url, title := c.data.title,
                  url := c.data.url, parent_id := some pid, position := pos,
                  date_added := c.data.date_added,
                  date_modified := c.data.date_modified,
                  preferred_browser := none, source_browser := some bn,
                  source_id := c.data.source_id } [] ::
      mkNodes bn mkId pid rest (pos + 1) (ctr + 1)

/-- Fixture: a URL bookmark. -/
def wUrl1 : Bookmark :=
  .mk { id := "u1", type := .url, title := "One", url := "http://a.com/1",
        parent_id := none, position := 0, date_added := "d",
        date_modified := "d", preferred_browser := none,
        source_browser := none, source_id := none } []

/-- Fixture: a second URL bookmark. -/
def wUrl2 : Bookmark :=
  .mk { id := "u2", type := .url, title := "Two", url := "http://a.com/2",
        parent_id := none, position := 1, date_added := "d",
        date_modified := "d", preferred_browser := none,
        source_browser := none, source_id := none } []

/-- Fixture: the data of a snapshot root folder. -/
def wRootData : BookmarkData :=
  { id := "r0", type := .folder, title := "root", url := "", parent_id := none,
    position := 0, date_added := "d", date_modified := "d",
    preferred_browser := none, source_browser := none, source_id := none }

/-- Fixture: a folder holding one URL bookmark. -/
def wFolder : Bookmark :=
  .mk { id := "f1", type := .folder, title := "F", url := "", parent_id := none,
        position := 0, date_added := "d", date_modified := "d",
        preferred_browser := none, source_browser := none,
        source_id := none } [wUrl1]

/-- Fixture: a browser-directed sync action. -/
def wBrAct : SyncAction := ⟨.add_to_browser, wUrl1, "bookmark_bar", "", "d"⟩

/-- Fixture: the plan for syncing one fresh browser URL into an empty
store. -/
def wAct : SyncAction :=
  ⟨.add_to_store, wUrl1, "bookmark_bar", "", "Add One to store from chrome"⟩

/-- Fixture: the result `plan_sync` produces on that input. -/
def wPlanVal : PlanResult :=
  ⟨[wAct], some (browserSnapshot wRootData [wUrl1]), none⟩

/-- Fixture: the result `execute_sync` produces with the browser running. -/
def wRes : ExecResult :=
  ⟨defaultStore "b0" "o0" "t0", 0, 0,
   some "chrome is running. Browser changes not applied.", false, false⟩

/-- Fixture: a store whose bar root holds one URL bookmark. -/
def wStoreA : BookmarkStore :=
  ⟨1, "t0",
   [("bookmark_bar", .mk wRootData [wUrl1]),
    ("other", defaultRoot "o0" "Other Bookmarks" "t0")]⟩

/-- Fixture: `wStoreA` after `remove` has detached its URL bookmark. -/
def wStoreA1 : BookmarkStore :=
  ⟨1, "t0",
   [("bookmark_bar", .mk { wRootData with date_modified := "t1" } []),
    ("other", defaultRoot "o0" "Other Bookmarks" "t0")]⟩

/-! ## Theorems -/

/-- The digest-state recursion of `calculate_checksum` appends exactly the
per-node byte stream described by the spec. -/
theorem updateDigest_append (acc : List Nat) (n : ChromeNode) :
    updateDigestNode acc n = acc ++ specNodeBytes n := by
  refine updateDigestNode.induct
    (fun acc n => updateDigestNode acc n = acc ++ specNodeBytes n)
    (fun acc l => updateDigestList acc l = acc ++ specListBytes l)
    ?_ ?_ ?_ ?_ acc n
  · intro acc i name url children ih
    rw [updateDigestNode, specNodeBytes]
    simp only [if_pos rfl]
    rw [ih]
    simp [List.append_assoc]
  · intro acc i name t url children ht
    rw [updateDigestNode, specNodeBytes]
    simp only [if_neg ht]
    simp [List.append_assoc]
  · intro acc
    rw [updateDigestList, specListBytes]
    simp
  · intro acc c rest ih1 ih2
    rw [updateDigestList, specListBytes]
    rw [ih2, ih1]
    simp [List.append_assoc]

/-- C4: `calculate_checksum` is the MD5 of exactly the byte stream the
spec describes. -/
theorem C4_calculate_checksum_exact (roots : ChromeRoots) :
    calculate_checksum roots = md5hex (specChecksumBytes roots) := by
  rw [calculate_checksum, specChecksumBytes]
  rw [updateDigest_append, updateDigest_append, updateDigest_append]
  simp [List.append_assoc]

/-- C7: a failing backup aborts `execute_import` before any mutation. -/
theorem C7_execute_import_backup_failure (store : BookmarkStore)
    (preview : ImportPreview) (mode : ImportMode) (e : String)
    (reload : Except String BookmarkStore) (now : String) (mkId : Nat → String) :
    execute_import store preview mode (.error e) reload now mkId =
      (store, 0, 0, some ("Failed to create backup: " ++ e)) := rfl

/-- C2: with the browser running at execute time, `execute_sync` commits
and persists the store side unchanged relative to a non-running run,
never invokes the browser write, reports zero browser changes, and
returns the running-precondition error. -/
theorem C2_execute_sync_running (store : BookmarkStore) (browser_name : String)
    (actions : List SyncAction) (writeOk : Bool) (mkId : Nat → String)
    (now : String) (res : ExecResult)
    (hb : actions.any isBrowserDirected = true)
    (h : execute_sync store browser_name actions true writeOk mkId now = some res) :
    res.browser_written = false ∧ res.browser_changes = 0 ∧
    res.error = some (browser_name ++ " is running. Browser changes not applied.") ∧
    res.store_saved = decide (0 < res.store_changes) ∧
    ∃ res2, execute_sync store browser_name actions false true mkId now = some res2 ∧
      res2.store = res.store ∧ res2.store_changes = res.store_changes ∧
      res2.store_saved = res.store_saved := by
  rw [execute_sync] at h
  cases ha : applyActions browser_name now mkId actions store 0 0 with
  | none => rw [ha] at h; exact Option.noConfusion h
  | some t =>
    obtain ⟨store1, store_changes, ctr⟩ := t
    rw [ha] at h
    simp only [hb, if_pos, if_true] at h
    injection h with h
    subst h
    have h2 : execute_sync store browser_name actions false true mkId now =
        some ⟨if 0 < store_changes then { store1 with last_modified := now } else store1,
              store_changes, (actions.filter isBrowserDirected).length, none, true,
              decide (0 < store_changes)⟩ := by
      rw [execute_sync, ha]
      simp [hb]
    exact ⟨rfl, rfl, rfl, rfl, _, h2, rfl, rfl, rfl⟩

/-- C1: every action `plan_sync` emits is one of the four additive kinds;
there is no delete. -/
theorem C1_plan_sync_no_delete (parseDate : String → Option Int)
    (store : BookmarkStore) (browser_name : String)
    (browserRead : Option BookmarkStore) (r : PlanResult) (a : SyncAction)
    (hr : plan_sync parseDate store browser_name browserRead = some r)
    (ha : a ∈ r.actions) :
    a.action = SyncActionType.add_to_store ∨ a.action = SyncActionType.update_store ∨
    a.action = SyncActionType.add_to_browser ∨ a.action = SyncActionType.update_browser := by
  rw [plan_sync.eq_def] at hr
  cases browserRead with
  | none =>
    injection hr with hr
    subst hr
    exact absurd ha (List.not_mem_nil a)
  | some bs =>
    dsimp only at hr
    cases h1 : buildLookup store with
    | none =>
      rw [h1] at hr
      cases h2 : buildLookup bs with
      | none => rw [h2] at hr; exact Option.noConfusion hr
      | some bl => rw [h2] at hr; exact Option.noConfusion hr
    | some sl =>
      cases h2 : buildLookup bs with
      | none => rw [h1, h2] at hr; exact Option.noConfusion hr
      | some bl =>
        rw [h1, h2] at hr
        injection hr with hr
        subst hr
        simp only [List.mem_append, List.mem_flatMap] at ha
        rcases ha with ⟨kv, _, hm⟩ | ⟨kv, _, hm⟩
        · split at hm
          · simp only [List.mem_singleton] at hm
            subst hm
            exact Or.inl rfl
          · split at hm
            · split at hm
              · simp only [List.mem_singleton] at hm
                subst hm
                exact Or.inr (Or.inl rfl)
              · exact absurd hm (List.not_mem_nil a)
            · exact absurd hm (List.not_mem_nil a)
        · split at hm
          · simp only [List.mem_singleton] at hm
            subst hm
            exact Or.inr (Or.inr (Or.inl rfl))
          · exact absurd hm (List.not_mem_nil a)

theorem appendInBM_not_found (pid : String) (c : Bookmark) (now : String)
    (b : Bookmark) (h : findInBM pid b = none) :
    appendInBM pid c now b = (b, false) := by
  refine appendInBM.induct pid c now
    (fun b => findInBM pid b = none → appendInBM pid c now b = (b, false))
    (fun l => findInList pid l = none → appendInList pid c now l = (l, false))
    ?_ ?_ ?_ ?_ ?_ b h
  · intro d cs hid hfind
    rw [findInBM] at hfind
    simp [hid] at hfind
  · intro d cs hid ih hfind
    rw [findInBM] at hfind
    simp only [hid, if_neg, if_false] at hfind
    rw [appendInBM]
    simp only [hid, if_neg, if_false]
    rw [ih hfind]
  · intro _
    rfl
  · intro b rest x hx ihb hfind
    have hfind' : findInList pid (b :: rest) = none := hfind
    cases hf : findInBM pid b with
    | some r => rw [findInList, hf] at hfind'; exact Option.noConfusion hfind'
    | none =>
      have hb := ihb hf
      have hx' : (appendInBM pid c now b).2 = true := hx
      rw [hb] at hx'
      exact Bool.noConfusion hx'
  · intro b rest x hx ihb ihrest hfind
    have hfind' : findInList pid (b :: rest) = none := hfind
    cases hf : findInBM pid b with
    | some r => rw [findInList, hf] at hfind'; exact Option.noConfusion hfind'
    | none =>
      rw [findInList, hf] at hfind'
      have hb := ihb hf
      have hrest : appendInList pid c now rest = (rest, false) := ihrest hfind'
      show appendInList pid c now (b :: rest) = (b :: rest, false)
      rw [appendInList]
      simp [hb, hrest]

theorem findInBM_append (pid : String) (c : Bookmark) (now : String)
    (b p : Bookmark) (h : findInBM pid b = some p) :
    (appendInBM pid c now b).2 = true ∧
    findInBM pid (appendInBM pid c now b).1 = some (appendNode p c now) := by
  refine appendInBM.induct pid c now
    (fun b => ∀ p, findInBM pid b = some p → (appendInBM pid c now b).2 = true ∧
      findInBM pid (appendInBM pid c now b).1 = some (appendNode p c now))
    (fun l => ∀ p, findInList pid l = some p → (appendInList pid c now l).2 = true ∧
      findInList pid (appendInList pid c now l).1 = some (appendNode p c now))
    ?_ ?_ ?_ ?_ ?_ b p h
  · intro d cs hid p hfind
    rw [findInBM, if_pos hid] at hfind
    injection hfind with hfind
    subst hfind
    rw [appendInBM, if_pos hid]
    refine ⟨rfl, ?_⟩
    rw [findInBM, if_pos hid]
    rfl
  · intro d cs hid ih p hfind
    rw [findInBM, if_neg hid] at hfind
    obtain ⟨h1, h2⟩ := ih p hfind
    rw [appendInBM, if_neg hid]
    exact ⟨h1, by rw [findInBM, if_neg hid]; exact h2⟩
  · intro p hfind
    exact Option.noConfusion hfind
  · intro b rest x hx ihb p hfind
    have hfind' : findInList pid (b :: rest) = some p := hfind
    cases hf : findInBM pid b with
    | some q =>
      rw [findInList, hf] at hfind'
      have hq : q = p := Option.some.inj hfind'
      subst hq
      obtain ⟨h1, h2⟩ := ihb q hf
      constructor
      · show (appendInList pid c now (b :: rest)).2 = true
        rw [appendInList]
        simp only [h1, if_pos, if_true]
      · show findInList pid (appendInList pid c now (b :: rest)).1 =
          some (appendNode q c now)
        rw [appendInList]
        simp only [h1, if_pos, if_true]
        rw [findInList, h2]
    | none =>
      have hb := appendInBM_not_found pid c now b hf
      have hx' : (appendInBM pid c now b).2 = true := hx
      rw [hb] at hx'
      exact Bool.noConfusion hx'
  · intro b rest x hx ihb ihrest p hfind
    have hfind' : findInList pid (b :: rest) = some p := hfind
    cases hf : findInBM pid b with
    | some q =>
      obtain ⟨h1, _⟩ := ihb q hf
      exact absurd h1 hx
    | none =>
      rw [findInList, hf] at hfind'
      obtain ⟨h1, h2⟩ := ihrest p hfind'
      have hxf : (appendInBM pid c now b).2 = false := by
        rw [appendInBM_not_found pid c now b hf]
      constructor
      · show (appendInList pid c now (b :: rest)).2 = true
        rw [appendInList]
        simp only [hxf, Bool.false_eq_true, if_neg, if_false]
        exact h1
      · show findInList pid (appendInList pid c now (b :: rest)).1 =
          some (appendNode p c now)
        rw [appendInList]
        simp only [hxf, Bool.false_eq_true, if_neg, if_false]
        rw [findInList, hf]
        exact h2

theorem appendRoots_not_found (pid : String) (c : Bookmark) (now : String)
    (roots : List (String × Bookmark)) (h : findRoots pid roots = none) :
    appendRoots pid c now roots = (roots, false) := by
  induction roots with
  | nil => rfl
  | cons e rest ih =>
    obtain ⟨n, r⟩ := e
    rw [findRoots] at h
    cases hf : findInBM pid r with
    | some q => rw [hf] at h; exact Option.noConfusion h
    | none =>
      rw [hf] at h
      have h' : findRoots pid rest = none := h
      rw [appendRoots]
      simp [appendInBM_not_found pid c now r hf, ih h']

theorem findRoots_append (pid : String) (c : Bookmark) (now : String)
    (roots : List (String × Bookmark)) (p : Bookmark)
    (h : findRoots pid roots = some p) :
    (appendRoots pid c now roots).2 = true ∧
    findRoots pid (appendRoots pid c now roots).1 = some (appendNode p c now) := by
  induction roots with
  | nil => exact Option.noConfusion h
  | cons e rest ih =>
    obtain ⟨n, r⟩ := e
    rw [findRoots] at h
    cases hf : findInBM pid r with
    | some q =>
      rw [hf] at h
      have hq : q = p := Option.some.inj h
      subst hq
      obtain ⟨h1, h2⟩ := findInBM_append pid c now r q hf
      constructor
      · rw [appendRoots]
        simp only [h1, if_pos, if_true]
      · rw [appendRoots]
        simp only [h1, if_pos, if_true]
        rw [findRoots, h2]
    | none =>
      rw [hf] at h
      obtain ⟨h1, h2⟩ := ih h
      have hxf : (appendInBM pid c now r).2 = false := by
        rw [appendInBM_not_found pid c now r hf]
      constructor
      · rw [appendRoots]
        simp only [hxf, Bool.false_eq_true, if_neg, if_false]
        exact h1
      · rw [appendRoots]
        simp only [hxf, Bool.false_eq_true, if_neg, if_false]
        rw [findRoots, hf]
        exact h2

theorem rootsGet_set_self (roots : List (String × Bookmark)) (name : String)
    (b rf : Bookmark) (h : rootsGet roots name = some rf) :
    rootsGet (rootsSet name b roots) name = some b := by
  induction roots with
  | nil => exact Option.noConfusion h
  | cons e rest ih =>
    obtain ⟨n, r⟩ := e
    by_cases hn : n = name
    · rw [rootsSet, if_pos hn]
      rw [rootsGet, List.find?_cons_of_pos _ (by simp [hn])]
      rfl
    · rw [rootsSet, if_neg hn]
      rw [rootsGet, List.find?_cons_of_neg _ (by simp [hn])] at h ⊢
      exact ih h

/-- C6: `add` appends under a resolving folder parent, at position equal
to the previous child count; in every other case it appends under the
named root folder. -/
theorem C6_add_parent_or_root (store : BookmarkStore) (bm : Bookmark)
    (ps : Option String) (root : String) (now : String) :
    (∀ parent, strTruthy ps = true →
      store.find_by_id (ps.getD "") = some parent →
      parent.data.type = BookmarkType.folder →
      (store.add bm ps root now).2 = bm.withParentPos ps parent.children.length ∧
      (store.add bm ps root now).1.find_by_id (ps.getD "") =
        some (appendNode parent (bm.withParentPos ps parent.children.length) now)) ∧
    ((strTruthy ps = false ∨ store.find_by_id (ps.getD "") = none ∨
      (∃ parent, store.find_by_id (ps.getD "") = some parent ∧
        parent.data.type ≠ BookmarkType.folder)) →
      ∀ rf, rootsGet store.roots root = some rf →
      (store.add bm ps root now).2 = bm.withParentPos (some rf.data.id) rf.children.length ∧
      rootsGet (store.add bm ps root now).1.roots root =
        some (appendNode rf (bm.withParentPos (some rf.data.id) rf.children.length) now)) := by
  constructor
  · intro parent ht hfind htype
    rw [BookmarkStore.add]
    simp only [ht, if_pos, if_true]
    rw [BookmarkStore.find_by_id] at hfind
    rw [show store.find_by_id (ps.getD "") = findRoots (ps.getD "") store.roots from rfl,
        hfind]
    simp only [htype, if_pos, if_true]
    obtain ⟨h1, h2⟩ := findRoots_append (ps.getD "")
      (bm.withParentPos ps parent.children.length) now store.roots parent hfind
    exact ⟨trivial, h2⟩
  · intro hfb rf hrf
    have hfallback : store.add bm ps root now = addToRoot store bm root now := by
      rcases hfb with ht | hnone | ⟨parent, hp, htype⟩
      · rw [BookmarkStore.add, ht]
        simp
      · rw [BookmarkStore.add]
        by_cases ht : strTruthy ps = true
        · simp only [ht, if_pos, if_true]
          rw [show store.find_by_id (ps.getD "") = findRoots (ps.getD "") store.roots from rfl] at hnone ⊢
          rw [hnone]
        · simp [Bool.not_eq_true] at ht
          rw [ht]
          simp
      · rw [BookmarkStore.add]
        by_cases ht : strTruthy ps = true
        · simp only [ht, if_pos, if_true]
          rw [show store.find_by_id (ps.getD "") = findRoots (ps.getD "") store.roots from rfl] at hp ⊢
          rw [hp]
          simp only [htype, if_neg, if_false]
        · simp [Bool.not_eq_true] at ht
          rw [ht]
          simp
    rw [hfallback]
    rw [addToRoot, hrf]
    obtain ⟨d, cs⟩ := rf
    refine ⟨rfl, ?_⟩
    exact rootsGet_set_self store.roots root _ _ hrf

theorem posOkList_all (i : Nat) (l : List Bookmark) (h : posOkList i l = true) :
    ∀ b ∈ l, posOkBM b = true := by
  induction l generalizing i with
  | nil => intro b hb; exact absurd hb (List.not_mem_nil b)
  | cons c rest ih =>
    rw [posOkList] at h
    simp only [Bool.and_eq_true] at h
    intro b hb
    rcases List.mem_cons.mp hb with rfl | hb
    · exact h.1.2
    · exact ih (i + 1) h.2 b hb

theorem posOkBM_reindex (i : Nat) (l : List Bookmark)
    (h : ∀ b ∈ l, posOkBM b = true) : posOkList i (reindexFrom i l) = true := by
  induction l generalizing i with
  | nil => rfl
  | cons c rest ih =>
    obtain ⟨d, cs⟩ := c
    rw [reindexFrom, posOkList]
    have h1 : posOkBM (.mk d cs) = true := h _ (List.mem_cons_self _ _)
    have h1' : posOkList 0 cs = true := h1
    simp only [Bool.and_eq_true]
    refine ⟨⟨by simp [Bookmark.data], h1'⟩, ?_⟩
    exact ih (i + 1) (fun b hb => h b (List.mem_cons_of_mem _ hb))

theorem bsizeL_reindex (i : Nat) (l : List Bookmark) :
    bsizeL (reindexFrom i l) = bsizeL l := by
  induction l generalizing i with
  | nil => rfl
  | cons c rest ih =>
    obtain ⟨d, cs⟩ := c
    rw [reindexFrom, bsizeL, bsizeL, ih (i + 1)]
    rfl

theorem removeInBM_props (bid now : String) (b : Bookmark)
    (hp : posOkBM b = true) (r b' : Bookmark)
    (h : removeInBM bid now b = some (r, b')) :
    r.data.id = bid ∧ posOkBM b' = true ∧ bsizeBM b = bsizeBM r + bsizeBM b' := by
  refine removeInBM.induct bid now
    (fun b => posOkBM b = true → ∀ r b', removeInBM bid now b = some (r, b') →
      r.data.id = bid ∧ posOkBM b' = true ∧ bsizeBM b = bsizeBM r + bsizeBM b')
    (fun l => ∀ i, posOkList i l = true →
      ∀ r l' atLvl, removeScan bid now l = some (r, l', atLvl) →
        r.data.id = bid ∧ bsizeL l = bsizeBM r + bsizeL l' ∧
        (atLvl = true → ∀ b ∈ l', posOkBM b = true) ∧
        (atLvl = false → posOkList i l' = true))
    ?_ ?_ ?_ ?_ ?_ ?_ ?_ ?_ b hp r b' h
  · -- node, scan none
    intro d cs hscan _ hp r b' hrem
    have hrem' : removeInBM bid now (.mk d cs) = some (r, b') := hrem
    rw [removeInBM, hscan] at hrem'
    exact Option.noConfusion hrem'
  · -- node, scan some at this level
    intro d cs r0 cs' hscan ih hp r b' hrem
    have hp' : posOkList 0 cs = true := hp
    obtain ⟨hid, hsz, hok, _⟩ := ih 0 hp' r0 cs' true hscan
    have hrem' : removeInBM bid now (.mk d cs) = some (r, b') := hrem
    rw [removeInBM, hscan] at hrem'
    simp only [if_pos, if_true] at hrem'
    have h12 := Option.some.inj hrem'
    have h1 : r0 = r := congrArg Prod.fst h12
    have h2 : (Bookmark.mk { d with date_modified := now } (reindexFrom 0 cs')) = b' :=
      congrArg Prod.snd h12
    rw [← h1, ← h2]
    refine ⟨hid, ?_, ?_⟩
    · show posOkList 0 (reindexFrom 0 cs') = true
      exact posOkBM_reindex 0 cs' (hok rfl)
    · show 1 + bsizeL cs = bsizeBM r0 + (1 + bsizeL (reindexFrom 0 cs'))
      rw [bsizeL_reindex]
      omega
  · -- node, scan some deeper
    intro d cs r0 cs' atLvl hscan hat ih hp r b' hrem
    have hp' : posOkList 0 cs = true := hp
    have hat' : atLvl = false := by
      cases atLvl
      · rfl
      · exact absurd rfl hat
    subst hat'
    obtain ⟨hid, hsz, _, hok⟩ := ih 0 hp' r0 cs' false hscan
    have hrem' : removeInBM bid now (.mk d cs) = some (r, b') := hrem
    rw [removeInBM, hscan] at hrem'
    simp only [Bool.false_eq_true, if_neg, if_false] at hrem'
    have h12 := Option.some.inj hrem'
    have h1 : r0 = r := congrArg Prod.fst h12
    have h2 : (Bookmark.mk d cs') = b' := congrArg Prod.snd h12
    rw [← h1, ← h2]
    refine ⟨hid, ?_, ?_⟩
    · show posOkList 0 cs' = true
      exact hok rfl
    · show 1 + bsizeL cs = bsizeBM r0 + (1 + bsizeL cs')
      omega
  · -- list nil
    intro i _ r l' atLvl hscan
    exact Option.noConfusion hscan
  · -- list cons, head id match
    intro c rest hid i hp r l' atLvl hscan
    have hscan' : removeScan bid now (c :: rest) = some (r, l', atLvl) := hscan
    rw [removeScan, if_pos hid] at hscan'
    injection hscan' with h1
    injection h1 with h1 h2
    injection h2 with h2 h3
    subst h1
    subst h2
    subst h3
    rw [posOkList] at hp
    simp only [Bool.and_eq_true] at hp
    refine ⟨hid, by rw [bsizeL], ?_, ?_⟩
    · intro _
      exact posOkList_all (i + 1) rest hp.2
    · intro hfalse
      exact Bool.noConfusion hfalse
  · -- list cons, removed inside head subtree
    intro c rest hid r0 c' hrem ih i hp r l' atLvl hscan
    rw [posOkList] at hp
    simp only [Bool.and_eq_true] at hp
    obtain ⟨hid0, hok0, hsz0⟩ := ih hp.1.2 r0 c' hrem
    have hscan' : removeScan bid now (c :: rest) = some (r, l', atLvl) := hscan
    rw [removeScan, if_neg (by exact fun hh => hid hh), hrem] at hscan'
    injection hscan' with h1
    injection h1 with h1 h2
    injection h2 with h2 h3
    subst h1
    subst h2
    subst h3
    refine ⟨hid0, ?_, ?_, ?_⟩
    · rw [bsizeL, bsizeL, hsz0]
      omega
    · intro htrue
      exact Bool.noConfusion htrue
    · intro _
      rw [posOkList]
      simp only [Bool.and_eq_true]
      have hcpos : c'.data.position = c.data.position := by
        cases c with
        | mk d cs =>
          cases hrm : removeScan bid now cs with
          | none => rw [removeInBM, hrm] at hrem; exact Option.noConfusion hrem
          | some t =>
            obtain ⟨rr, cs2, at2⟩ := t
            rw [removeInBM, hrm] at hrem
            cases at2 with
            | true =>
              simp only [if_pos, if_true] at hrem
              injection hrem with hx
              injection hx with hx1 hx2
              subst hx2
              rfl
            | false =>
              simp only [Bool.false_eq_true, if_neg, if_false] at hrem
              injection hrem with hx
              injection hx with hx1 hx2
              subst hx2
              rfl
      refine ⟨⟨?_, hok0⟩, hp.2⟩
      rw [hcpos]
      exact hp.1.1
  · -- list cons, removed in rest
    intro c rest hid hrem r0 rest' atLvl hscan ih1 ih2 i hp r l' atLvl2 hscan2
    rw [posOkList] at hp
    simp only [Bool.and_eq_true] at hp
    obtain ⟨hid0, hsz0, hokT, hokF⟩ := ih2 (i + 1) hp.2 r0 rest' atLvl hscan
    have hscan2' : removeScan bid now (c :: rest) = some (r, l', atLvl2) := hscan2
    rw [removeScan, if_neg (by exact fun hh => hid hh), hrem, hscan] at hscan2'
    injection hscan2' with h1
    injection h1 with h1 h2
    injection h2 with h2 h3
    subst h1
    subst h2
    subst h3
    refine ⟨hid0, ?_, ?_, ?_⟩
    · rw [bsizeL, bsizeL, hsz0]
      omega
    · intro htrue
      refine fun b hb => ?_
      rcases List.mem_cons.mp hb with rfl | hb
      · exact hp.1.2
      · exact hokT htrue b hb
    · intro hfalse
      rw [posOkList]
      simp only [Bool.and_eq_true]
      exact ⟨⟨hp.1.1, hp.1.2⟩, hokF hfalse⟩
  · -- list cons, nothing found
    intro c rest hid hrem hscan ih1 ih2 i hp r l' atLvl hscan2
    have hscan2' : removeScan bid now (c :: rest) = some (r, l', atLvl) := hscan2
    rw [removeScan, if_neg (by exact fun hh => hid hh), hrem, hscan] at hscan2'
    exact Option.noConfusion hscan2'

theorem removeInBM_none_iff (bid now : String) (b : Bookmark) :
    removeInBM bid now b = none ↔ ¬ bid ∈ idsL b.children := by
  refine removeInBM.induct bid now
    (fun b => removeInBM bid now b = none ↔ ¬ bid ∈ idsL b.children)
    (fun l => removeScan bid now l = none ↔ ¬ bid ∈ idsL l)
    ?_ ?_ ?_ ?_ ?_ ?_ ?_ ?_ b
  · intro d cs hscan ih
    constructor
    · intro _
      exact ih.mp hscan
    · intro _
      rw [removeInBM, hscan]
  · intro d cs r0 cs' hscan ih
    constructor
    · intro hnone
      rw [removeInBM, hscan] at hnone
      simp only [if_pos, if_true] at hnone
      exact Option.noConfusion hnone
    · intro hmem
      exfalso
      apply hmem
      by_contra hnm
      have := ih.mpr hnm
      rw [this] at hscan
      exact Option.noConfusion hscan
  · intro d cs r0 cs' atLvl hscan hat ih
    constructor
    · intro hnone
      rw [removeInBM, hscan] at hnone
      have hat' : atLvl = false := by
        cases atLvl
        · rfl
        · exact absurd rfl hat
      subst hat'
      simp only [Bool.false_eq_true, if_neg, if_false] at hnone
      exact Option.noConfusion hnone
    · intro hmem
      exfalso
      apply hmem
      by_contra hnm
      have := ih.mpr hnm
      rw [this] at hscan
      exact Option.noConfusion hscan
  · constructor
    · intro _
      exact List.not_mem_nil bid
    · intro _
      rfl
  · intro c rest hid
    constructor
    · intro hnone
      rw [removeScan, if_pos hid] at hnone
      exact Option.noConfusion hnone
    · intro hmem
      exfalso
      apply hmem
      obtain ⟨d, cs⟩ := c
      rw [idsL, idsBM]
      have hid' : d.id = bid := hid
      rw [hid']
      simp
  · intro c rest hid r0 c' hrem ih
    constructor
    · intro hnone
      rw [removeScan, if_neg (fun hh => hid hh), hrem] at hnone
      exact Option.noConfusion hnone
    · intro hmem
      exfalso
      apply hmem
      have hmem0 : bid ∈ idsL c.children := by
        by_contra hnm
        have := ih.mpr hnm
        rw [this] at hrem
        exact Option.noConfusion hrem
      obtain ⟨d, cs⟩ := c
      rw [idsL, idsBM]
      right
      exact List.mem_append_left _ hmem0
  · intro c rest hid hrem r0 rest' atLvl hscan ih1 ih2
    constructor
    · intro hnone
      rw [removeScan, if_neg (fun hh => hid hh), hrem, hscan] at hnone
      exact Option.noConfusion hnone
    · intro hmem
      exfalso
      apply hmem
      have hmem0 : bid ∈ idsL rest := by
        by_contra hnm
        have := ih2.mpr hnm
        rw [this] at hscan
        exact Option.noConfusion hscan
      rw [idsL]
      exact List.mem_append_right _ hmem0
  · intro c rest hid hrem hscan ih1 ih2
    constructor
    · intro _
      rw [idsL, List.mem_append]
      rintro (h1 | h2)
      · obtain ⟨d, cs⟩ := c
        rw [idsBM] at h1
        rcases List.mem_cons.mp h1 with rfl | h1
        · exact hid rfl
        · exact ih1.mp hrem h1
      · exact ih2.mp hscan h2
    · intro _
      rw [removeScan, if_neg (fun hh => hid hh), hrem, hscan]

theorem posOkBM_withParentPos (b : Bookmark) (pid : Option String) (pos : Nat) :
    posOkBM (b.withParentPos pid pos) = posOkBM b := by
  obtain ⟨d, cs⟩ := b
  rfl

theorem posOkList_append_last (i : Nat) (l : List Bookmark) (c : Bookmark)
    (hl : posOkList i l = true) (hc : posOkBM c = true)
    (hpos : c.data.position = i + l.length) : posOkList i (l ++ [c]) = true := by
  induction l generalizing i with
  | nil =>
    rw [List.nil_append, posOkList, posOkList]
    simp [hpos, hc]
  | cons b rest ih =>
    rw [posOkList] at hl
    simp only [Bool.and_eq_true] at hl
    rw [List.cons_append, posOkList]
    simp only [Bool.and_eq_true]
    refine ⟨⟨hl.1.1, hl.1.2⟩, ?_⟩
    refine ih (i + 1) hl.2 ?_
    rw [hpos, List.length_cons]
    omega

theorem appendInBM_posOk (pid : String) (c : Bookmark) (now : String)
    (b parent : Bookmark) (hfind : findInBM pid b = some parent)
    (hpos : c.data.position = parent.children.length)
    (hc : posOkBM c = true) (hb : posOkBM b = true) :
    posOkBM (appendInBM pid c now b).1 = true := by
  refine appendInBM.induct pid c now
    (fun b => ∀ parent, findInBM pid b = some parent →
      c.data.position = parent.children.length → posOkBM b = true →
      posOkBM (appendInBM pid c now b).1 = true)
    (fun l => ∀ parent i, findInList pid l = some parent →
      c.data.position = parent.children.length → posOkList i l = true →
      posOkList i (appendInList pid c now l).1 = true)
    ?_ ?_ ?_ ?_ ?_ b parent hfind hpos hb
  · intro d cs hid parent hfind hpos hb
    rw [findInBM, if_pos hid] at hfind
    have hpb : parent = Bookmark.mk d cs := (Option.some.inj hfind).symm
    subst hpb
    rw [appendInBM, if_pos hid]
    show posOkList 0 (cs ++ [c]) = true
    refine posOkList_append_last 0 cs c hb hc ?_
    rw [hpos]
    show cs.length = 0 + cs.length
    omega
  · intro d cs hid ih parent hfind hpos hb
    rw [findInBM, if_neg hid] at hfind
    rw [appendInBM, if_neg hid]
    show posOkList 0 (appendInList pid c now cs).1 = true
    exact ih parent 0 hfind hpos hb
  · intro parent i hfind _ _
    exact Option.noConfusion hfind
  · intro b rest x hx ihb parent i hfind hpos hl
    have hfind' : findInList pid (b :: rest) = some parent := hfind
    rw [posOkList] at hl
    simp only [Bool.and_eq_true] at hl
    cases hf : findInBM pid b with
    | some q =>
      rw [findInList, hf] at hfind'
      have hq : q = parent := Option.some.inj hfind'
      subst hq
      have hok := ihb q hf hpos hl.1.2
      have h1 : (appendInBM pid c now b).2 = true := (findInBM_append pid c now b q hf).1
      show posOkList i (appendInList pid c now (b :: rest)).1 = true
      rw [appendInList]
      simp only [h1, if_pos, if_true]
      rw [posOkList]
      simp only [Bool.and_eq_true]
      have hposition : (appendInBM pid c now b).1.data.position = b.data.position := by
        obtain ⟨d, cs⟩ := b
        rw [appendInBM]
        by_cases hid : d.id = pid
        · rw [if_pos hid]
          rfl
        · rw [if_neg hid]
          rfl
      refine ⟨⟨?_, hok⟩, hl.2⟩
      rw [hposition]
      exact hl.1.1
    | none =>
      have hb := appendInBM_not_found pid c now b hf
      have hx' : (appendInBM pid c now b).2 = true := hx
      rw [hb] at hx'
      exact Bool.noConfusion hx'
  · intro b rest x hx ihb ihrest parent i hfind hpos hl
    have hfind' : findInList pid (b :: rest) = some parent := hfind
    rw [posOkList] at hl
    simp only [Bool.and_eq_true] at hl
    cases hf : findInBM pid b with
    | some q =>
      have h1 : (appendInBM pid c now b).2 = true := (findInBM_append pid c now b q hf).1
      exact absurd h1 hx
    | none =>
      rw [findInList, hf] at hfind'
      have hxf : (appendInBM pid c now b).2 = false := by
        rw [appendInBM_not_found pid c now b hf]
      have hok := ihrest parent (i + 1) hfind' hpos hl.2
      show posOkList i (appendInList pid c now (b :: rest)).1 = true
      rw [appendInList]
      simp only [hxf, Bool.false_eq_true, if_neg, if_false]
      rw [posOkList]
      simp only [Bool.and_eq_true]
      exact ⟨⟨hl.1.1, hl.1.2⟩, hok⟩

theorem appendRoots_posOk (pid : String) (c : Bookmark) (now : String)
    (roots : List (String × Bookmark)) (parent : Bookmark)
    (hfind : findRoots pid roots = some parent)
    (hpos : c.data.position = parent.children.length)
    (hc : posOkBM c = true)
    (hp : ∀ e ∈ roots, posOkBM e.2 = true) :
    ∀ e ∈ (appendRoots pid c now roots).1, posOkBM e.2 = true := by
  induction roots with
  | nil => exact Option.noConfusion hfind
  | cons e rest ih =>
    obtain ⟨n, r⟩ := e
    rw [findRoots] at hfind
    cases hf : findInBM pid r with
    | some q =>
      rw [hf] at hfind
      have hq : q = parent := Option.some.inj hfind
      subst hq
      have h1 : (appendInBM pid c now r).2 = true := (findInBM_append pid c now r q hf).1
      rw [appendRoots]
      simp only [h1, if_pos, if_true]
      intro e he
      rcases List.mem_cons.mp he with rfl | he
      · exact appendInBM_posOk pid c now r q hf hpos hc (hp _ (List.mem_cons_self _ _))
      · exact hp e (List.mem_cons_of_mem _ he)
    | none =>
      rw [hf] at hfind
      have hxf : (appendInBM pid c now r).2 = false := by
        rw [appendInBM_not_found pid c now r hf]
      rw [appendRoots]
      simp only [hxf, Bool.false_eq_true, if_neg, if_false]
      intro e he
      rcases List.mem_cons.mp he with rfl | he
      · exact hp _ (List.mem_cons_self _ _)
      · exact ih hfind (fun e he => hp e (List.mem_cons_of_mem _ he)) e he

theorem rootsGet_mem (roots : List (String × Bookmark)) (name : String)
    (rf : Bookmark) (h : rootsGet roots name = some rf) :
    ∃ n, (n, rf) ∈ roots := by
  rw [rootsGet] at h
  cases hf : roots.find? (fun e => e.1 = name) with
  | none => rw [hf] at h; exact Option.noConfusion h
  | some e =>
    rw [hf] at h
    have he : e ∈ roots := List.mem_of_find?_eq_some hf
    have : e.2 = rf := Option.some.inj h
    exact ⟨e.1, by rw [← this]; exact he⟩

theorem posOk_rootsSet (roots : List (String × Bookmark)) (name : String)
    (b : Bookmark) (hp : ∀ e ∈ roots, posOkBM e.2 = true)
    (hb : posOkBM b = true) :
    ∀ e ∈ rootsSet name b roots, posOkBM e.2 = true := by
  induction roots with
  | nil => intro e he; exact absurd he (List.not_mem_nil e)
  | cons e0 rest ih =>
    obtain ⟨n, r⟩ := e0
    rw [rootsSet]
    by_cases hn : n = name
    · rw [if_pos hn]
      intro e he
      rcases List.mem_cons.mp he with rfl | he
      · exact hb
      · exact hp e (List.mem_cons_of_mem _ he)
    · rw [if_neg hn]
      intro e he
      rcases List.mem_cons.mp he with rfl | he
      · exact hp _ (List.mem_cons_self _ _)
      · exact ih (fun e he => hp e (List.mem_cons_of_mem _ he)) e he

/-- `add` keeps every sibling list contiguous. -/
theorem add_posOk (store : BookmarkStore) (bm : Bookmark) (ps : Option String)
    (root : String) (now : String) (hp : posOkStore store = true)
    (hbm : posOkBM bm = true) :
    posOkStore (store.add bm ps root now).1 = true := by
  rw [posOkStore, List.all_eq_true] at hp
  have haddToRoot : posOkStore (addToRoot store bm root now).1 = true := by
    rw [addToRoot]
    cases hg : rootsGet store.roots root with
    | none => rw [posOkStore, List.all_eq_true]; exact hp
    | some rf =>
      obtain ⟨d, cs⟩ := rf
      rw [posOkStore, List.all_eq_true]
      refine posOk_rootsSet store.roots root _ hp ?_
      show posOkList 0 (cs ++ [bm.withParentPos (some d.id) cs.length]) = true
      obtain ⟨nn, hmem⟩ := rootsGet_mem store.roots root _ hg
      have hrf : posOkList 0 cs = true := hp _ hmem
      refine posOkList_append_last 0 cs _ hrf ?_ ?_
      · rw [posOkBM_withParentPos]
        exact hbm
      · obtain ⟨db, csb⟩ := bm
        show cs.length = 0 + cs.length
        omega
  rw [BookmarkStore.add]
  by_cases ht : strTruthy ps = true
  · simp only [ht, if_pos, if_true]
    cases hfind : store.find_by_id (ps.getD "") with
    | none => exact haddToRoot
    | some parent =>
      by_cases htype : parent.data.type = BookmarkType.folder
      · simp only [htype, if_pos, if_true]
        rw [posOkStore, List.all_eq_true]
        refine appendRoots_posOk (ps.getD "") _ now store.roots parent hfind ?_ ?_ hp
        · obtain ⟨db, csb⟩ := bm
          rfl
        · rw [posOkBM_withParentPos]
          exact hbm
      · simp only [htype, if_neg, if_false]
        exact haddToRoot
  · simp only [Bool.not_eq_true] at ht
    rw [ht]
    simp only [Bool.false_eq_true, if_neg, if_false]
    exact haddToRoot

theorem bsizeBM_children (b : Bookmark) : bsizeBM b = 1 + bsizeL b.children := by
  obtain ⟨d, cs⟩ := b
  rfl

theorem removeRoots_props (bid now : String) (roots : List (String × Bookmark))
    (hp : ∀ e ∈ roots, posOkBM e.2 = true) (r : Bookmark)
    (roots' : List (String × Bookmark))
    (h : removeRoots bid now roots = some (r, roots')) :
    r.data.id = bid ∧ (∀ e ∈ roots', posOkBM e.2 = true) ∧
    (roots.map (fun e => bsizeL e.2.children)).sum =
      bsizeBM r + (roots'.map (fun e => bsizeL e.2.children)).sum := by
  induction roots generalizing roots' with
  | nil => exact Option.noConfusion h
  | cons e rest ih =>
    obtain ⟨n, rt⟩ := e
    rw [removeRoots] at h
    cases hf : removeInBM bid now rt with
    | some t =>
      obtain ⟨rm, rt'⟩ := t
      rw [hf] at h
      have h12 := Option.some.inj h
      have h1 : rm = r := congrArg Prod.fst h12
      have h2 : (n, rt') :: rest = roots' := congrArg Prod.snd h12
      subst h1
      subst h2
      obtain ⟨hid, hok, hsz⟩ := removeInBM_props bid now rt
        (hp _ (List.mem_cons_self _ _)) rm rt' hf
      refine ⟨hid, ?_, ?_⟩
      · intro e he
        rcases List.mem_cons.mp he with rfl | he
        · exact hok
        · exact hp e (List.mem_cons_of_mem _ he)
      · rw [List.map_cons, List.map_cons, List.sum_cons, List.sum_cons]
        dsimp only
        have e1 := bsizeBM_children rt
        have e2 := bsizeBM_children rt'
        omega
    | none =>
      rw [hf] at h
      cases hr : removeRoots bid now rest with
      | none => rw [hr] at h; exact Option.noConfusion h
      | some t =>
        obtain ⟨rm, rest'⟩ := t
        rw [hr] at h
        have h12 := Option.some.inj h
        have h1 : rm = r := congrArg Prod.fst h12
        have h2 : (n, rt) :: rest' = roots' := congrArg Prod.snd h12
        subst h1
        subst h2
        obtain ⟨hid, hok, hsz⟩ := ih (fun e he => hp e (List.mem_cons_of_mem _ he)) rest' hr
        refine ⟨hid, ?_, ?_⟩
        · intro e he
          rcases List.mem_cons.mp he with rfl | he
          · exact hp _ (List.mem_cons_self _ _)
          · exact hok e he
        · rw [List.map_cons, List.map_cons, List.sum_cons, List.sum_cons]
          dsimp only
          omega

theorem removeRoots_none_iff (bid now : String) (roots : List (String × Bookmark)) :
    removeRoots bid now roots = none ↔
      ¬ bid ∈ roots.flatMap (fun e => idsL e.2.children) := by
  induction roots with
  | nil =>
    constructor
    · intro _
      simp
    · intro _
      rfl
  | cons e rest ih =>
    obtain ⟨n, rt⟩ := e
    rw [removeRoots]
    constructor
    · intro h
      cases hf : removeInBM bid now rt with
      | some t => rw [hf] at h; exact Option.noConfusion h
      | none =>
        rw [hf] at h
        cases hr : removeRoots bid now rest with
        | some t => rw [hr] at h; exact Option.noConfusion h
        | none =>
          rw [List.flatMap_cons, List.mem_append]
          rintro (h1 | h2)
          · exact (removeInBM_none_iff bid now rt).mp hf h1
          · exact ih.mp hr h2
    · intro hmem
      rw [List.flatMap_cons, List.mem_append] at hmem
      have hf : removeInBM bid now rt = none :=
        (removeInBM_none_iff bid now rt).mpr (fun hh => hmem (Or.inl hh))
      have hr : removeRoots bid now rest = none :=
        ih.mpr (fun hh => hmem (Or.inr hh))
      rw [hf, hr]

/-- `remove` keeps every sibling list contiguous, whatever the outcome. -/
theorem remove_posOk (store : BookmarkStore) (bid now : String)
    (hp : posOkStore store = true) :
    posOkStore (store.remove bid now).2 = true := by
  rw [BookmarkStore.remove]
  cases h : removeRoots bid now store.roots with
  | none => exact hp
  | some t =>
    obtain ⟨rm, roots'⟩ := t
    rw [posOkStore, List.all_eq_true] at hp ⊢
    exact (removeRoots_props bid now store.roots hp rm roots' h).2.1

/-- C8: `remove` detaches exactly the node with the requested id,
re-indexes, preserves global position contiguity, signals not-found
exactly when no non-root node carries the id; and add-then-remove of the
same node leaves every sibling list contiguous. -/
theorem C8_remove_reindex (store : BookmarkStore) (bid now : String)
    (hp : posOkStore store = true) :
    (∀ r s', store.remove bid now = (some r, s') →
      r.data.id = bid ∧ posOkStore s' = true ∧
      storeSize store = bsizeBM r + storeSize s') ∧
    ((store.remove bid now).1 = none ↔ ¬ bid ∈ descIds store) ∧
    (∀ bm ps root now2, posOkBM bm = true →
      posOkStore (((store.add bm ps root now2).1.remove bm.data.id now).2) = true) := by
  refine ⟨?_, ?_, ?_⟩
  · intro r s' h
    rw [BookmarkStore.remove] at h
    cases hroots : removeRoots bid now store.roots with
    | none =>
      rw [hroots] at h
      have h1 : (none : Option Bookmark) = some r := congrArg Prod.fst h
      exact Option.noConfusion h1
    | some t =>
      obtain ⟨rm, roots'⟩ := t
      rw [hroots] at h
      have h1 : some rm = some r := congrArg Prod.fst h
      have h1' : rm = r := Option.some.inj h1
      subst h1'
      have h2 : ({ store with roots := roots' } : BookmarkStore) = s' := congrArg Prod.snd h
      subst h2
      rw [posOkStore, List.all_eq_true] at hp
      obtain ⟨hid, hok, hsz⟩ := removeRoots_props bid now store.roots hp rm roots' hroots
      refine ⟨hid, ?_, hsz⟩
      rw [posOkStore, List.all_eq_true]
      exact hok
  · rw [BookmarkStore.remove]
    cases hroots : removeRoots bid now store.roots with
    | none =>
      simp only []
      constructor
      · intro _
        exact (removeRoots_none_iff bid now store.roots).mp hroots
      · intro _
        trivial
    | some t =>
      obtain ⟨rm, roots'⟩ := t
      simp only []
      constructor
      · intro hh
        exact Option.noConfusion hh
      · intro hmem
        exfalso
        have : removeRoots bid now store.roots = none :=
          (removeRoots_none_iff bid now store.roots).mpr hmem
        rw [this] at hroots
        exact Option.noConfusion hroots
  · intro bm ps root now2 hbm
    exact remove_posOk _ _ _ (add_posOk store bm ps root now2 hp hbm)

theorem idsL_reindex (i : Nat) (l : List Bookmark) :
    idsL (reindexFrom i l) = idsL l := by
  induction l generalizing i with
  | nil => rfl
  | cons c rest ih =>
    obtain ⟨d, cs⟩ := c
    rw [reindexFrom, idsL, idsL, ih (i + 1)]
    rfl

theorem findInBM_none_iff (bid : String) (b : Bookmark) :
    findInBM bid b = none ↔ ¬ bid ∈ idsBM b := by
  refine findInBM.induct bid
    (fun b => findInBM bid b = none ↔ ¬ bid ∈ idsBM b)
    (fun l => findInList bid l = none ↔ ¬ bid ∈ idsL l)
    ?_ ?_ ?_ ?_ ?_ b
  · intro d cs hid
    constructor
    · intro h
      rw [findInBM, if_pos hid] at h
      exact Option.noConfusion h
    · intro hmem
      exfalso
      apply hmem
      show bid ∈ d.id :: idsL cs
      rw [hid]
      exact List.mem_cons_self _ _
  · intro d cs hid ih
    rw [findInBM, if_neg hid, idsBM]
    constructor
    · intro h
      intro hmem
      rcases List.mem_cons.mp hmem with rfl | hmem
      · exact hid rfl
      · exact ih.mp h hmem
    · intro hmem
      exact ih.mpr (fun hh => hmem (List.mem_cons_of_mem _ hh))
  · constructor
    · intro _
      exact List.not_mem_nil bid
    · intro _
      rfl
  · intro c rest rhd hf ih
    constructor
    · intro h
      rw [findInList, hf] at h
      exact Option.noConfusion h
    · intro hmem
      exfalso
      apply hmem
      have : ¬ findInBM bid c = none := by
        rw [hf]
        exact fun hh => Option.noConfusion hh
      have hmem0 : bid ∈ idsBM c := by
        by_contra hnm
        exact this (ih.mpr hnm)
      rw [idsL]
      exact List.mem_append_left _ hmem0
  · intro c rest hf ih1 ih2
    rw [findInList, hf, idsL]
    constructor
    · intro h hmem
      rcases List.mem_append.mp hmem with h1 | h2
      · exact ih1.mp hf h1
      · exact ih2.mp h h2
    · intro hmem
      exact ih2.mpr (fun hh => hmem (List.mem_append_right _ hh))

theorem findRoots_none_iff (bid : String) (roots : List (String × Bookmark)) :
    findRoots bid roots = none ↔ ¬ bid ∈ roots.flatMap (fun e => idsBM e.2) := by
  induction roots with
  | nil =>
    constructor
    · intro _
      simp
    · intro _
      rfl
  | cons e rest ih =>
    obtain ⟨n, rt⟩ := e
    rw [findRoots, List.flatMap_cons]
    constructor
    · intro h hmem
      cases hf : findInBM bid rt with
      | some q => rw [hf] at h; exact Option.noConfusion h
      | none =>
        rw [hf] at h
        rcases List.mem_append.mp hmem with h1 | h2
        · exact (findInBM_none_iff bid rt).mp hf h1
        · exact ih.mp h h2
    · intro hmem
      have hf : findInBM bid rt = none :=
        (findInBM_none_iff bid rt).mpr (fun hh => hmem (List.mem_append_left _ hh))
      rw [hf]
      exact ih.mpr (fun hh => hmem (List.mem_append_right _ hh))

theorem removeScan_none_iff_aux (bid now : String) (l : List Bookmark) :
    removeScan bid now l = none ↔ ¬ bid ∈ idsL l := by
  constructor
  · intro h
    have hn : removeInBM bid now
        (Bookmark.mk ⟨"", .url, "", "", none, 0, "", "", none, none, none⟩ l) = none := by
      rw [removeInBM, h]
    exact (removeInBM_none_iff bid now _).mp hn
  · intro h
    have hn := (removeInBM_none_iff bid now
      (Bookmark.mk ⟨"", .url, "", "", none, 0, "", "", none, none, none⟩ l)).mpr h
    rw [removeInBM] at hn
    cases hs : removeScan bid now l with
    | none => rfl
    | some t =>
      obtain ⟨r, l2, al⟩ := t
      rw [hs] at hn
      cases al
      · simp at hn
      · simp at hn

theorem removeInBM_unique_gone (bid now : String) (b : Bookmark)
    (r b' : Bookmark) (h : removeInBM bid now b = some (r, b'))
    (hnd : (idsBM b).Nodup) : ¬ bid ∈ idsBM b' := by
  refine removeInBM.induct bid now
    (fun b => ∀ r b', removeInBM bid now b = some (r, b') → (idsBM b).Nodup →
      ¬ bid ∈ idsBM b')
    (fun l => ∀ r l' atLvl, removeScan bid now l = some (r, l', atLvl) →
      (idsL l).Nodup → ¬ bid ∈ idsL l')
    ?_ ?_ ?_ ?_ ?_ ?_ ?_ ?_ b r b' h hnd
  · intro d cs hscan _ r b' hrem
    have hrem' : removeInBM bid now (.mk d cs) = some (r, b') := hrem
    rw [removeInBM, hscan] at hrem'
    exact fun _ => Option.noConfusion hrem'
  · intro d cs r0 cs' hscan ih r b' hrem hnd
    have hrem' : removeInBM bid now (.mk d cs) = some (r, b') := hrem
    rw [removeInBM, hscan] at hrem'
    simp only [if_pos, if_true] at hrem'
    have h2 : (Bookmark.mk { d with date_modified := now } (reindexFrom 0 cs')) = b' :=
      congrArg Prod.snd (Option.some.inj hrem')
    rw [← h2]
    have hnd' : (idsBM (Bookmark.mk d cs)).Nodup := hnd
    rw [idsBM] at hnd'
    have hmem0 : bid ∈ idsL cs := by
      by_contra hnm
      have := (removeInBM_none_iff bid now (.mk d cs)).mpr hnm
      rw [removeInBM, hscan] at this
      simp only [if_pos, if_true] at this
      exact Option.noConfusion this
    intro hmem
    have hmem' : bid ∈ idsBM (Bookmark.mk { d with date_modified := now } (reindexFrom 0 cs')) := hmem
    rw [idsBM, idsL_reindex] at hmem'
    rcases List.mem_cons.mp hmem' with heq | hmem'
    · rw [List.nodup_cons] at hnd'
      exact hnd'.1 (heq ▸ hmem0)
    · exact ih r0 cs' true hscan (List.nodup_cons.mp hnd').2 hmem'
  · intro d cs r0 cs' atLvl hscan hat ih r b' hrem hnd
    have hrem' : removeInBM bid now (.mk d cs) = some (r, b') := hrem
    rw [removeInBM, hscan] at hrem'
    have hat' : atLvl = false := by
      cases atLvl
      · rfl
      · exact absurd rfl hat
    subst hat'
    simp only [Bool.false_eq_true, if_neg, if_false] at hrem'
    have h2 : (Bookmark.mk d cs') = b' := congrArg Prod.snd (Option.some.inj hrem')
    rw [← h2]
    have hnd' : (idsBM (Bookmark.mk d cs)).Nodup := hnd
    rw [idsBM] at hnd'
    have hmem0 : bid ∈ idsL cs := by
      by_contra hnm
      have := (removeInBM_none_iff bid now (.mk d cs)).mpr hnm
      rw [removeInBM, hscan] at this
      simp only [Bool.false_eq_true, if_neg, if_false] at this
      exact Option.noConfusion this
    intro hmem
    have hmem' : bid ∈ idsBM (Bookmark.mk d cs') := hmem
    rw [idsBM] at hmem'
    rcases List.mem_cons.mp hmem' with heq | hmem'
    · rw [List.nodup_cons] at hnd'
      exact hnd'.1 (heq ▸ hmem0)
    · exact ih r0 cs' false hscan (List.nodup_cons.mp hnd').2 hmem'
  · intro r l' atLvl hscan
    exact fun _ => Option.noConfusion hscan
  · intro c rest hid r l' atLvl hscan hnd
    have hscan' : removeScan bid now (c :: rest) = some (r, l', atLvl) := hscan
    rw [removeScan, if_pos hid] at hscan'
    have h2 : rest = l' := by
      have := congrArg Prod.snd (Option.some.inj hscan')
      exact congrArg Prod.fst this
    rw [← h2]
    have hnd' : (idsL (c :: rest)).Nodup := hnd
    rw [idsL, List.nodup_append] at hnd'
    intro hmem
    have hbc : bid ∈ idsBM c := by
      obtain ⟨d, cs⟩ := c
      show bid ∈ d.id :: idsL cs
      rw [show d.id = bid from hid]
      exact List.mem_cons_self _ _
    exact hnd'.2.2 hbc hmem
  · intro c rest hid r0 c' hrem ih r l' atLvl hscan hnd
    have hscan' : removeScan bid now (c :: rest) = some (r, l', atLvl) := hscan
    rw [removeScan, if_neg (fun hh => hid hh), hrem] at hscan'
    have h2 : c' :: rest = l' := by
      have := congrArg Prod.snd (Option.some.inj hscan')
      exact congrArg Prod.fst this
    rw [← h2]
    have hnd' : (idsL (c :: rest)).Nodup := hnd
    rw [idsL, List.nodup_append] at hnd'
    have hbc : bid ∈ idsBM c := by
      by_contra hnm
      have hcnone : findInBM bid c = none := (findInBM_none_iff bid c).mpr hnm
      have : ¬ bid ∈ idsL c.children := by
        intro hmm
        apply hnm
        obtain ⟨d, cs⟩ := c
        rw [idsBM]
        exact List.mem_cons_of_mem _ hmm
      have := (removeInBM_none_iff bid now c).mpr this
      rw [this] at hrem
      exact Option.noConfusion hrem
    intro hmem
    rw [idsL, List.mem_append] at hmem
    rcases hmem with h1 | h1
    · exact ih r0 c' hrem hnd'.1 h1
    · exact hnd'.2.2 hbc h1
  · intro c rest hid hrem r0 rest' atLvl hscan ih1 ih2 r l' atLvl2 hscan2 hnd
    have hscan2' : removeScan bid now (c :: rest) = some (r, l', atLvl2) := hscan2
    rw [removeScan, if_neg (fun hh => hid hh), hrem, hscan] at hscan2'
    have h2 : c :: rest' = l' := by
      have := congrArg Prod.snd (Option.some.inj hscan2')
      exact congrArg Prod.fst this
    rw [← h2]
    have hnd' : (idsL (c :: rest)).Nodup := hnd
    rw [idsL, List.nodup_append] at hnd'
    have hbrest : bid ∈ idsL rest := by
      by_contra hnm
      have := (removeScan_none_iff_aux bid now rest).mpr hnm
      rw [this] at hscan
      exact Option.noConfusion hscan
    intro hmem
    rw [idsL, List.mem_append] at hmem
    rcases hmem with h1 | h1
    · exact hnd'.2.2 h1 hbrest
    · exact ih2 r0 rest' atLvl hscan hnd'.2.1 h1
  · intro c rest hid hrem hscan ih1 ih2 r l' atLvl hscan2
    have hscan2' : removeScan bid now (c :: rest) = some (r, l', atLvl) := hscan2
    rw [removeScan, if_neg (fun hh => hid hh), hrem, hscan] at hscan2'
    exact fun _ => Option.noConfusion hscan2'

theorem removeRoots_unique_gone (bid now : String)
    (roots : List (String × Bookmark)) (r : Bookmark)
    (roots' : List (String × Bookmark))
    (h : removeRoots bid now roots = some (r, roots'))
    (hnd : (roots.flatMap (fun e => idsBM e.2)).Nodup) :
    ¬ bid ∈ roots'.flatMap (fun e => idsBM e.2) := by
  induction roots generalizing roots' with
  | nil => exact fun _ => Option.noConfusion h
  | cons e rest ih =>
    obtain ⟨n, rt⟩ := e
    rw [removeRoots] at h
    rw [List.flatMap_cons, List.nodup_append] at hnd
    cases hf : removeInBM bid now rt with
    | some t =>
      obtain ⟨rm, rt'⟩ := t
      rw [hf] at h
      have h2 : (n, rt') :: rest = roots' := congrArg Prod.snd (Option.some.inj h)
      rw [← h2]
      have hbrt : bid ∈ idsBM rt := by
        by_contra hnm
        have hsub : ¬ bid ∈ idsL rt.children := by
          intro hmm
          apply hnm
          obtain ⟨d, cs⟩ := rt
          exact List.mem_cons_of_mem _ hmm
        have := (removeInBM_none_iff bid now rt).mpr hsub
        rw [this] at hf
        exact Option.noConfusion hf
      intro hmem
      rw [List.flatMap_cons, List.mem_append] at hmem
      rcases hmem with h1 | h1
      · exact removeInBM_unique_gone bid now rt rm rt' hf hnd.1 h1
      · exact hnd.2.2 hbrt h1
    | none =>
      rw [hf] at h
      cases hr : removeRoots bid now rest with
      | none => rw [hr] at h; exact fun _ => Option.noConfusion h
      | some t =>
        obtain ⟨rm, rest'⟩ := t
        rw [hr] at h
        have h1 : rm = r := congrArg Prod.fst (Option.some.inj h)
        rw [h1] at hr
        have h2 : (n, rt) :: rest' = roots' := congrArg Prod.snd (Option.some.inj h)
        rw [← h2]
        have hbrest : bid ∈ rest.flatMap (fun e => idsBM e.2) := by
          by_contra hnm
          have : removeRoots bid now rest = none := by
            by_contra hsome
            cases hx : removeRoots bid now rest with
            | none => exact hsome hx
            | some t2 =>
              obtain ⟨rm2, rest2⟩ := t2
              apply hnm
              -- removal succeeded in rest: bid is among rest's descendant ids
              have hne : ¬ removeRoots bid now rest = none := by
                rw [hx]
                exact fun hh => Option.noConfusion hh
              have hdesc : bid ∈ rest.flatMap (fun e => idsL e.2.children) := by
                by_contra hnd2
                exact hne ((removeRoots_none_iff bid now rest).mpr hnd2)
              rcases List.mem_flatMap.mp hdesc with ⟨e2, he2, hin⟩
              refine List.mem_flatMap.mpr ⟨e2, he2, ?_⟩
              obtain ⟨n2, rt2⟩ := e2
              obtain ⟨d2, cs2⟩ := rt2
              show bid ∈ d2.id :: idsL cs2
              exact List.mem_cons_of_mem _ hin
          rw [this] at hr
          exact Option.noConfusion hr
        intro hmem
        rw [List.flatMap_cons, List.mem_append] at hmem
        rcases hmem with h1 | h1
        · exact hnd.2.2 h1 hbrest
        · exact ih rest' hr hnd.2.1 h1

/-- C10: when the new parent does not resolve to a folder, `move` reports
failure but the node has already been detached: the store `move` returns
is the post-removal store, in which the id is no longer reachable. -/
theorem C10_move_not_atomic (store : BookmarkStore) (bid npid : String)
    (position : Int) (now : String) (r : Bookmark) (s1 : BookmarkStore)
    (hnodup : (allIds store).Nodup)
    (hrem : store.remove bid now = (some r, s1))
    (hnp : s1.find_by_id npid = none ∨
      (∃ np, s1.find_by_id npid = some np ∧ np.data.type ≠ BookmarkType.folder)) :
    store.move bid npid position now = (false, s1) ∧
    s1.find_by_id bid = none ∧ ¬ s1 = store := by
  have hroots : ∃ roots', removeRoots bid now store.roots = some (r, roots') ∧
      s1 = { store with roots := roots' } := by
    rw [BookmarkStore.remove] at hrem
    cases hx : removeRoots bid now store.roots with
    | none =>
      rw [hx] at hrem
      have h1 : (none : Option Bookmark) = some r := congrArg Prod.fst hrem
      exact Option.noConfusion h1
    | some t =>
      obtain ⟨rm, roots'⟩ := t
      rw [hx] at hrem
      have h1 : some rm = some r := congrArg Prod.fst hrem
      have h2 : ({ store with roots := roots' } : BookmarkStore) = s1 := congrArg Prod.snd hrem
      have h1' : rm = r := Option.some.inj h1
      subst h1'
      exact ⟨roots', rfl, h2.symm⟩
  obtain ⟨roots', hrr, hs1⟩ := hroots
  have hgone : s1.find_by_id bid = none := by
    rw [hs1]
    show findRoots bid roots' = none
    refine (findRoots_none_iff bid roots').mpr ?_
    exact removeRoots_unique_gone bid now store.roots r roots' hrr hnodup
  have hmove : store.move bid npid position now = (false, s1) := by
    rw [BookmarkStore.move]
    rw [show store.remove bid now = (some r, s1) from hrem]
    dsimp only
    rcases hnp with hnone | ⟨np, hsome, htype⟩
    · rw [show s1.find_by_id npid = none from hnone]
    · rw [show s1.find_by_id npid = some np from hsome]
      simp only [htype, if_neg, if_false]
  have hin : bid ∈ allIds store := by
    have hne : ¬ removeRoots bid now store.roots = none := by
      rw [hrr]
      exact fun hh => Option.noConfusion hh
    have hdesc : bid ∈ store.roots.flatMap (fun e => idsL e.2.children) := by
      by_contra hnd2
      exact hne ((removeRoots_none_iff bid now store.roots).mpr hnd2)
    rcases List.mem_flatMap.mp hdesc with ⟨e2, he2, hin2⟩
    refine List.mem_flatMap.mpr ⟨e2, he2, ?_⟩
    obtain ⟨n2, rt2⟩ := e2
    obtain ⟨d2, cs2⟩ := rt2
    show bid ∈ d2.id :: idsL cs2
    exact List.mem_cons_of_mem _ hin2
  refine ⟨hmove, hgone, ?_⟩
  intro heq
  have : store.find_by_id bid = none := by rw [← heq]; exact hgone
  have hne := (findRoots_none_iff bid store.roots).mp this
  exact hne hin

theorem lowerChar_cases (c : Char) :
    lowerChar c = c ∨ ∃ p, p ∈ caseTable ∧ p.1 = c ∧ lowerChar c = p.2 := by
  rw [lowerChar]
  cases hf : caseTable.find? (fun p => p.1 = c) with
  | none => left; rfl
  | some p =>
    right
    refine ⟨p, List.mem_of_find?_eq_some hf, ?_, rfl⟩
    have := List.find?_some hf
    simpa using this

theorem lowerChar_idem (c : Char) : lowerChar (lowerChar c) = lowerChar c := by
  rcases lowerChar_cases c with h | ⟨p, hp, _, h2⟩
  · rw [h, h]
  · rw [h2]
    have hnone : ∀ p ∈ caseTable, caseTable.find? (fun q => q.1 = p.2) = none := by decide
    rw [lowerChar, hnone p hp]

theorem lowerChar_special (c s : Char) (hs : s ∈ specialChars) :
    lowerChar c = s ↔ c = s := by
  constructor
  · intro h
    rcases lowerChar_cases c with h0 | ⟨p, hp, h1, h2⟩
    · rw [← h0, h]
    · exfalso
      have hno : ∀ p ∈ caseTable, ∀ s ∈ specialChars, ¬ p.2 = s := by decide
      exact hno p hp s hs (h2 ▸ h)
  · intro h
    subst h
    have hfix : ∀ s ∈ specialChars, caseTable.find? (fun q => q.1 = s) = none := by decide
    rw [lowerChar, hfix c hs]

theorem lowerChar_schemeChars (c : Char) (h : c ∈ schemeChars) :
    lowerChar c ∈ schemeChars := by
  rcases lowerChar_cases c with h0 | ⟨p, hp, h1, h2⟩
  · rw [h0]; exact h
  · rw [h2]
    have : ∀ p ∈ caseTable, p.2 ∈ schemeChars := by decide
    exact this p hp

theorem lowerChar_isAlpha (c : Char) (h : c.isAlpha = true) :
    (lowerChar c).isAlpha = true := by
  rcases lowerChar_cases c with h0 | ⟨p, hp, h1, h2⟩
  · rw [h0]; exact h
  · rw [h2]
    have : ∀ p ∈ caseTable, (p.2).isAlpha = true := by decide
    exact this p hp

theorem lowerL_idem (l : List Char) : lowerL (lowerL l) = lowerL l := by
  rw [lowerL, lowerL, List.map_map]
  refine List.map_congr_left ?_
  intro c _
  exact lowerChar_idem c

theorem mem_lowerL_special (l : List Char) (s : Char) (hs : s ∈ specialChars) :
    s ∈ lowerL l ↔ s ∈ l := by
  rw [lowerL]
  constructor
  · intro h
    rcases List.mem_map.mp h with ⟨c, hc, he⟩
    rw [← (lowerChar_special c s hs).mp he]
    exact hc
  · intro h
    refine List.mem_map.mpr ⟨s, h, ?_⟩
    exact (lowerChar_special s s hs).mpr rfl

/-! List helpers -/

theorem mem_of_mem_takeWhile {q : Char → Bool} {c : Char} {l : List Char}
    (h : c ∈ l.takeWhile q) : c ∈ l := by
  induction l with
  | nil => simpa using h
  | cons a t ih =>
    rw [List.takeWhile_cons] at h
    by_cases hq : q a = true
    · rw [if_pos hq] at h
      rcases List.mem_cons.mp h with rfl | h
      · exact List.mem_cons_self _ _
      · exact List.mem_cons_of_mem _ (ih h)
    · rw [if_neg hq] at h
      exact absurd h (List.not_mem_nil c)

theorem mem_of_mem_dropWhile {q : Char → Bool} {c : Char} {l : List Char}
    (h : c ∈ l.dropWhile q) : c ∈ l := by
  induction l with
  | nil => simpa using h
  | cons a t ih =>
    rw [List.dropWhile_cons] at h
    by_cases hq : q a = true
    · rw [if_pos hq] at h
      exact List.mem_cons_of_mem _ (ih h)
    · rw [if_neg hq] at h
      exact h

theorem dropWhile_head_false {q : Char → Bool} {l t : List Char} {c : Char}
    (h : l.dropWhile q = c :: t) : q c = false := by
  induction l with
  | nil => simp at h
  | cons a t0 ih =>
    rw [List.dropWhile_cons] at h
    by_cases hq : q a = true
    · rw [if_pos hq] at h
      exact ih h
    · rw [if_neg hq] at h
      have : a = c := (List.cons.injEq .. ▸ h).1
      rw [← this]
      exact Bool.not_eq_true _ ▸ hq

theorem splitHash_no_hash (cs : List Char) : ¬ '#' ∈ (splitHash cs).1 := by
  rw [splitHash]
  by_cases h : '#' ∈ cs
  · rw [if_pos h]
    intro hm
    have := List.mem_takeWhile_imp hm
    simp at this
  · rw [if_neg h]
    exact h

theorem splitHash_subset (cs : List Char) : ∀ c ∈ (splitHash cs).1, c ∈ cs := by
  rw [splitHash]
  by_cases h : '#' ∈ cs
  · rw [if_pos h]
    intro c hc
    exact mem_of_mem_takeWhile hc
  · rw [if_neg h]
    intro c hc
    exact hc

theorem splitHash_not_mem (cs : List Char) (h : ¬ '#' ∈ cs) :
    splitHash cs = (cs, []) := by
  rw [splitHash, if_neg h]

theorem splitQuery_no_query (cs : List Char) : ¬ '?' ∈ (splitQuery cs).1 := by
  rw [splitQuery]
  by_cases h : '?' ∈ cs
  · rw [if_pos h]
    intro hm
    have := List.mem_takeWhile_imp hm
    simp at this
  · rw [if_neg h]
    exact h

theorem splitQuery_subset (cs : List Char) : ∀ c ∈ (splitQuery cs).1, c ∈ cs := by
  rw [splitQuery]
  by_cases h : '?' ∈ cs
  · rw [if_pos h]
    intro c hc
    exact mem_of_mem_takeWhile hc
  · rw [if_neg h]
    intro c hc
    exact hc

theorem splitQuery_not_mem (cs : List Char) (h : ¬ '?' ∈ cs) :
    splitQuery cs = (cs, []) := by
  rw [splitQuery, if_neg h]

theorem splitHash_keeps_head (t : List Char) (c : Char) (hc : ¬ c = '#') :
    ∃ t2, (splitHash (c :: t)).1 = c :: t2 := by
  rw [splitHash]
  by_cases hm : '#' ∈ c :: t
  · rw [if_pos hm]
    rw [List.takeWhile_cons, if_pos (by simpa using hc)]
    exact ⟨_, rfl⟩
  · rw [if_neg hm]
    exact ⟨t, rfl⟩

theorem splitQuery_keeps_head (t : List Char) (c : Char) (hc : ¬ c = '?') :
    ∃ t2, (splitQuery (c :: t)).1 = c :: t2 := by
  rw [splitQuery]
  by_cases hm : '?' ∈ c :: t
  · rw [if_pos hm]
    rw [List.takeWhile_cons, if_pos (by simpa using hc)]
    exact ⟨_, rfl⟩
  · rw [if_neg hm]
    exact ⟨t, rfl⟩

theorem splitScheme_chars (cs : List Char) :
    ∀ c ∈ (splitScheme cs).1, c ∈ schemeChars ∧ lowerChar c = c := by
  unfold splitScheme
  split
  · split
    · next hcond =>
      intro c hc
      rcases List.mem_map.mp hc with ⟨c0, hc0, he⟩
      have h0 : c0 ∈ schemeChars := by
        have := List.all_eq_true.mp hcond.2.2 c0 hc0
        simpa using this
      subst he
      exact ⟨lowerChar_schemeChars c0 h0, lowerChar_idem c0⟩
    · intro c hc
      exact absurd hc (List.not_mem_nil c)
  · intro c hc
    exact absurd hc (List.not_mem_nil c)

theorem splitScheme_head (cs : List Char) :
    (splitScheme cs).1 = [] ∨ (((splitScheme cs).1.headD ' ').isAlpha = true) := by
  unfold splitScheme
  split
  · next i hf =>
    split
    · next hcond =>
      right
      obtain ⟨hi, halpha, _⟩ := hcond
      cases cs with
      | nil => exact absurd hf (by simp)
      | cons c0 t =>
        have halpha' : c0.isAlpha = true := halpha
        cases i with
        | zero => exact absurd hi (by omega)
        | succ k =>
          show ((lowerL (List.take (k + 1) (c0 :: t))).headD ' ').isAlpha = true
          rw [List.take_succ_cons, lowerL, List.map_cons]
          show (lowerChar c0).isAlpha = true
          exact lowerChar_isAlpha c0 halpha'
    · left
      rfl
  · left
    rfl

theorem splitScheme_rest_subset (cs : List Char) :
    ∀ c ∈ (splitScheme cs).2, c ∈ cs := by
  unfold splitScheme
  split
  · split
    · intro c hc
      exact List.mem_of_mem_drop hc
    · intro c hc
      exact hc
  · intro c hc
    exact hc

/-- Structural facts `urlsplit` guarantees about a successful parse. -/
theorem urlsplit_props (cs : List Char) (r : SplitResult)
    (h : urlsplit cs = some r) :
    (∀ c ∈ r.scheme, c ∈ schemeChars ∧ lowerChar c = c) ∧
    (r.scheme = [] ∨ (r.scheme.headD ' ').isAlpha = true) ∧
    (¬ '#' ∈ r.path) ∧ (¬ '?' ∈ r.path) ∧
    (∀ c ∈ r.path, c ∈ cs) ∧ (∀ c ∈ r.netloc, c ∈ cs) ∧
    (r.netloc ≠ [] →
      ((∀ c ∈ r.netloc, netlocStop c = false) ∧
       ¬ (('[' ∈ r.netloc ∧ ¬ ']' ∈ r.netloc) ∨ (']' ∈ r.netloc ∧ ¬ '[' ∈ r.netloc)) ∧
       (r.path = [] ∨ ∃ t, r.path = '/' :: t))) := by
  rw [urlsplit] at h
  by_cases hsl : (splitScheme cs).2.take 2 = ['/', '/']
  · rw [if_pos hsl] at h
    by_cases hbr : ('[' ∈ ((splitScheme cs).2.drop 2).takeWhile (fun c => ¬ netlocStop c) ∧
        ¬ ']' ∈ ((splitScheme cs).2.drop 2).takeWhile (fun c => ¬ netlocStop c)) ∨
        (']' ∈ ((splitScheme cs).2.drop 2).takeWhile (fun c => ¬ netlocStop c) ∧
        ¬ '[' ∈ ((splitScheme cs).2.drop 2).takeWhile (fun c => ¬ netlocStop c))
    · rw [if_pos hbr] at h
      exact Option.noConfusion h
    · rw [if_neg hbr] at h
      have hr : r = ⟨(splitScheme cs).1,
          ((splitScheme cs).2.drop 2).takeWhile (fun c => ¬ netlocStop c),
          (splitQuery (splitHash (((splitScheme cs).2.drop 2).dropWhile
            (fun c => ¬ netlocStop c))).1).1,
          (splitQuery (splitHash (((splitScheme cs).2.drop 2).dropWhile
            (fun c => ¬ netlocStop c))).1).2,
          (splitHash (((splitScheme cs).2.drop 2).dropWhile
            (fun c => ¬ netlocStop c))).2⟩ := (Option.some.inj h).symm
      subst hr
      refine ⟨splitScheme_chars cs, splitScheme_head cs, ?_, ?_, ?_, ?_, ?_⟩
      · intro hm
        exact splitHash_no_hash _ (splitQuery_subset _ _ hm)
      · exact splitQuery_no_query _
      · intro c hc
        have h1 := splitQuery_subset _ _ hc
        have h2 := splitHash_subset _ _ h1
        have h3 := mem_of_mem_dropWhile h2
        exact splitScheme_rest_subset cs c (List.mem_of_mem_drop h3)
      · intro c hc
        have h3 := mem_of_mem_takeWhile hc
        exact splitScheme_rest_subset cs c (List.mem_of_mem_drop h3)
      · intro hne
        refine ⟨?_, hbr, ?_⟩
        · intro c hc
          have := List.mem_takeWhile_imp hc
          simpa using this
        · cases hd : ((splitScheme cs).2.drop 2).dropWhile (fun c => ¬ netlocStop c) with
          | nil =>
            left
            rfl
          | cons c0 t0 =>
            have hstop : netlocStop c0 = true := by
              have := dropWhile_head_false hd
              simpa using this
            rw [netlocStop] at hstop
            simp only [Bool.or_eq_true, decide_eq_true_eq] at hstop
            rcases hstop with h0 | h0 | h0
            · right
              subst h0
              obtain ⟨t1, ht1⟩ := splitHash_keeps_head t0 '/' (by decide)
              rw [ht1]
              obtain ⟨t2, ht2⟩ := splitQuery_keeps_head t1 '/' (by decide)
              exact ⟨t2, ht2⟩
            · left
              subst h0
              obtain ⟨t1, ht1⟩ := splitHash_keeps_head t0 '?' (by decide)
              rw [ht1]
              rw [splitQuery, if_pos (List.mem_cons_self _ _)]
              rw [List.takeWhile_cons, if_neg (by simp)]
            · left
              subst h0
              rw [splitHash, if_pos (List.mem_cons_self _ _)]
              rw [List.takeWhile_cons, if_neg (by simp)]
              rw [splitQuery, if_neg (List.not_mem_nil _)]
  · rw [if_neg hsl] at h
    have hr : r = ⟨(splitScheme cs).1, [],
        (splitQuery (splitHash (splitScheme cs).2).1).1,
        (splitQuery (splitHash (splitScheme cs).2).1).2,
        (splitHash (splitScheme cs).2).2⟩ := (Option.some.inj h).symm
    subst hr
    refine ⟨splitScheme_chars cs, splitScheme_head cs, ?_, ?_, ?_, ?_, ?_⟩
    · intro hm
      exact splitHash_no_hash _ (splitQuery_subset _ _ hm)
    · exact splitQuery_no_query _
    · intro c hc
      have h1 := splitQuery_subset _ _ hc
      have h2 := splitHash_subset _ _ h1
      exact splitScheme_rest_subset cs c h2
    · intro c hc
      exact absurd hc (List.not_mem_nil c)
    · intro hne
      exact absurd rfl hne

theorem splitScheme_rebuild (s rest : List Char) (hne : s ≠ [])
    (hs_chars : ∀ c ∈ s, c ∈ schemeChars ∧ lowerChar c = c)
    (hs_head : (s.headD ' ').isAlpha = true) :
    splitScheme (s ++ ':' :: rest) = (s, rest) := by
  have hnc : ∀ c ∈ s, ¬ c = ':' := by
    intro c hc
    have h1 := (hs_chars c hc).1
    intro he
    subst he
    exact absurd h1 (by decide)
  have hfind : (s ++ ':' :: rest).findIdx? (fun c => c = ':') = some s.length := by
    rw [List.findIdx?_append]
    have h1 : s.findIdx? (fun c => c = ':') = none := by
      rw [List.findIdx?_eq_none_iff]
      intro c hc
      simpa using hnc c hc
    have h2 : (':' :: rest).findIdx? (fun c => c = ':') = some 0 := by
      rw [List.findIdx?_cons]
      simp
    rw [h1, h2]
    simp
  rw [splitScheme, hfind]
  dsimp only
  have hcond : 0 < s.length ∧ (((s ++ ':' :: rest).headD ' ').isAlpha = true) ∧
      (((s ++ ':' :: rest).take s.length).all (fun c => c ∈ schemeChars) = true) := by
    refine ⟨by cases s with | nil => exact absurd rfl hne | cons a t => simp, ?_, ?_⟩
    · cases s with
      | nil => exact absurd rfl hne
      | cons a t => exact hs_head
    · rw [show (s ++ ':' :: rest).take s.length = s from List.take_left s _]
      rw [List.all_eq_true]
      intro c hc
      simpa using (hs_chars c hc).1
  rw [if_pos hcond]
  have ht : (s ++ ':' :: rest).take s.length = s := List.take_left s _
  have hd : (s ++ ':' :: rest).drop (s.length + 1) = rest := by
    rw [List.drop_append 1]
    rfl
  rw [ht, hd]
  have hl : lowerL s = s := by
    rw [lowerL]
    have : ∀ c ∈ s, lowerChar c = c := fun c hc => (hs_chars c hc).2
    calc s.map lowerChar = s.map id := List.map_congr_left (fun c hc => this c hc)
    _ = s := List.map_id s
  rw [hl]

theorem netloc_split_rebuild (n p : List Char)
    (hn_stop : ∀ c ∈ n, netlocStop c = false)
    (hp : p = [] ∨ ∃ t, p = '/' :: t) :
    (n ++ p).takeWhile (fun c => ¬ netlocStop c) = n ∧
    (n ++ p).dropWhile (fun c => ¬ netlocStop c) = p := by
  have hq : ∀ c ∈ n, (decide (¬ netlocStop c = true)) = true := by
    intro c hc
    rw [hn_stop c hc]
    decide
  have htkn : n.takeWhile (fun c => ¬ netlocStop c) = n :=
    List.takeWhile_eq_self_iff.mpr hq
  have hdpn : n.dropWhile (fun c => ¬ netlocStop c) = [] :=
    List.dropWhile_eq_nil_iff.mpr hq
  rcases hp with rfl | ⟨t, rfl⟩
  · rw [List.append_nil]
    exact ⟨htkn, hdpn⟩
  · constructor
    · rw [List.takeWhile_append]
      rw [htkn]
      rw [if_pos rfl]
      rw [List.takeWhile_cons]
      rw [if_neg (by simp [netlocStop])]
      rw [List.append_nil]
    · rw [List.dropWhile_append]
      rw [hdpn]
      simp only [List.isEmpty_nil, if_pos]
      rw [List.dropWhile_cons]
      rw [if_neg (by simp [netlocStop])]

/-- `urlsplit` inverts the string `normalize_url` rebuilds, when the
scheme part is nonempty. -/
theorem urlsplit_rebuild (s n p : List Char) (hsne : s ≠ [])
    (hs_chars : ∀ c ∈ s, c ∈ schemeChars ∧ lowerChar c = c)
    (hs_head : (s.headD ' ').isAlpha = true)
    (hn_stop : ∀ c ∈ n, netlocStop c = false)
    (hbr : ¬ (('[' ∈ n ∧ ¬ ']' ∈ n) ∨ (']' ∈ n ∧ ¬ '[' ∈ n)))
    (hp : p = [] ∨ ∃ t, p = '/' :: t)
    (hp_hash : ¬ '#' ∈ p) (hp_query : ¬ '?' ∈ p) :
    urlsplit (s ++ ':' :: '/' :: '/' :: (n ++ p)) = some ⟨s, n, p, [], []⟩ := by
  rw [urlsplit]
  rw [splitScheme_rebuild s ('/' :: '/' :: (n ++ p)) hsne hs_chars hs_head]
  have htake : ('/' :: '/' :: (n ++ p)).take 2 = ['/', '/'] := rfl
  rw [if_pos htake]
  have hdrop : ('/' :: '/' :: (n ++ p)).drop 2 = n ++ p := rfl
  rw [hdrop]
  obtain ⟨htw, hdw⟩ := netloc_split_rebuild n p hn_stop hp
  rw [htw, hdw]
  rw [if_neg hbr]
  rw [splitHash_not_mem p hp_hash]
  dsimp only
  rw [splitQuery_not_mem p hp_query]

theorem urlsplit_colon_start (rest : List Char) :
    urlsplit (':' :: rest) = some ⟨[], [],
      (splitQuery (splitHash (':' :: rest)).1).1,
      (splitQuery (splitHash (':' :: rest)).1).2,
      (splitHash (':' :: rest)).2⟩ := by
  rw [urlsplit]
  have hss : splitScheme (':' :: rest) = ([], ':' :: rest) := by
    rw [splitScheme]
    have hf : (':' :: rest).findIdx? (fun c => c = ':') = some 0 := by
      rw [List.findIdx?_cons]
      simp
    rw [hf]
    dsimp only
    rw [if_neg (by simp)]
  rw [hss]
  have hne : (':' :: rest).take 2 ≠ ['/', '/'] := by
    cases rest with
    | nil => simp
    | cons a t =>
      intro hh
      have : (':' : Char) = '/' := by
        have := congrArg (fun l => l.headD ' ') hh
        simpa using this
      exact absurd this (by decide)
  rw [if_neg hne]

theorem rstripSlash_front (cs : List Char) : rstripSlash cs <+: cs := by
  rw [rstripSlash]
  have h : cs.reverse.dropWhile (fun c => c = '/') <:+ cs.reverse :=
    List.dropWhile_suffix _
  have h2 := List.reverse_prefix.mpr h
  rwa [List.reverse_reverse] at h2

theorem mem_rstripSlash (cs : List Char) : ∀ c ∈ rstripSlash cs, c ∈ cs :=
  fun _ hc => (rstripSlash_front cs).subset hc

theorem rstripSlash_shape (t : List Char) :
    rstripSlash ('/' :: t) = [] ∨ ∃ u, rstripSlash ('/' :: t) = '/' :: u := by
  cases h : rstripSlash ('/' :: t) with
  | nil => exact Or.inl rfl
  | cons a u =>
    right
    have hp := rstripSlash_front ('/' :: t)
    rw [h] at hp
    obtain ⟨w, hw⟩ := hp
    have ha : a = '/' := by
      have := congrArg (fun l => l.headD ' ') hw
      simpa using this
    exact ⟨u, by rw [ha]⟩

theorem dropWhile_self {q : Char → Bool} (l : List Char) :
    (l.dropWhile q).dropWhile q = l.dropWhile q := by
  cases h : l.dropWhile q with
  | nil => rfl
  | cons a t =>
    rw [List.dropWhile_cons, if_neg]
    simp [dropWhile_head_false h]

theorem rstripSlash_idem (cs : List Char) :
    rstripSlash (rstripSlash cs) = rstripSlash cs := by
  rw [rstripSlash, rstripSlash, List.reverse_reverse, dropWhile_self]

theorem lowerL_fixed (l : List Char) (h : ∀ c ∈ l, lowerChar c = c) :
    lowerL l = l := by
  rw [lowerL]
  calc l.map lowerChar = l.map id := List.map_congr_left h
  _ = l := List.map_id l

theorem netlocStop_mem (c : Char) (h : netlocStop c = true) :
    c = '/' ∨ c = '?' ∨ c = '#' := by
  rw [netlocStop] at h
  simpa using h

theorem lowerL_netloc_stop (n : List Char) (h : ∀ c ∈ n, netlocStop c = false) :
    ∀ c ∈ lowerL n, netlocStop c = false := by
  intro c hc
  cases hb : netlocStop c with
  | false => rfl
  | true =>
    exfalso
    rcases netlocStop_mem c hb with rfl | rfl | rfl
    · have hm := (mem_lowerL_special n '/' (by decide)).mp hc
      rw [h _ hm] at hb
      exact Bool.noConfusion hb
    · have hm := (mem_lowerL_special n '?' (by decide)).mp hc
      rw [h _ hm] at hb
      exact Bool.noConfusion hb
    · have hm := (mem_lowerL_special n '#' (by decide)).mp hc
      rw [h _ hm] at hb
      exact Bool.noConfusion hb

theorem lowerL_brackets (n : List Char)
    (h : ¬ (('[' ∈ n ∧ ¬ ']' ∈ n) ∨ (']' ∈ n ∧ ¬ '[' ∈ n))) :
    ¬ (('[' ∈ lowerL n ∧ ¬ ']' ∈ lowerL n) ∨ (']' ∈ lowerL n ∧ ¬ '[' ∈ lowerL n)) := by
  rw [mem_lowerL_special n '[' (by decide), mem_lowerL_special n ']' (by decide)]
  exact h

theorem lowerL_ne_nil (n : List Char) (h : n ≠ []) : lowerL n ≠ [] := by
  simp only [lowerL, ne_eq, List.map_eq_nil_iff]
  exact h

theorem urlparse_of_urlsplit_no_semi (cs : List Char) (r : SplitResult)
    (hus : urlsplit cs = some r) (hsemi : ¬ ';' ∈ r.path) :
    urlparse cs = some ⟨r.scheme, r.netloc, r.path, [], r.query, r.fragment⟩ := by
  rw [urlparse, hus]
  simp only [Option.map_some']
  rw [if_neg (fun hcon => hsemi hcon.2)]

theorem urlparse_netloc (cs : List Char) (r : SplitResult)
    (hus : urlsplit cs = some r) :
    ∃ p, urlparse cs = some p ∧ p.netloc = r.netloc := by
  rw [urlparse, hus]
  simp only [Option.map_some']
  by_cases hc : r.scheme ∈ usesParams ∧ ';' ∈ r.path
  · rw [if_pos hc]
    exact ⟨_, rfl, rfl⟩
  · rw [if_neg hc]
    exact ⟨_, rfl, rfl⟩

theorem normalize_url_fixpoint (x y : String)
    (hsemi : ¬ ';' ∈ x.data) (h : normalize_url x = some y) :
    normalize_url y = some y := by
  by_cases hx : x = ""
  · subst hx
    rw [normalize_url, if_pos rfl] at h
    have hy : y = "" := (Option.some.inj h).symm
    subst hy
    rfl
  · rw [normalize_url, if_neg hx] at h
    cases hus : urlsplit x.data with
    | none =>
      have hnone : urlparse x.data = none := by
        rw [urlparse, hus]
        rfl
      rw [hnone] at h
      exact Option.noConfusion h
    | some r =>
      obtain ⟨hs_chars, hs_head, hp_hash, hp_query, hp_sub, hn_sub, hn_rest⟩ :=
        urlsplit_props x.data r hus
      have hsemi_path : ¬ ';' ∈ r.path := fun hm => hsemi (hp_sub ';' hm)
      rw [urlparse_of_urlsplit_no_semi x.data r hus hsemi_path] at h
      have h2 : (if lowerL r.netloc ≠ [] then
          some (String.mk (lowerL r.scheme ++ [':', '/', '/'] ++ lowerL r.netloc ++
            rstripSlash r.path))
        else some x) = some y := h
      by_cases hn : r.netloc = []
      · rw [hn] at h2
        rw [if_neg (by decide)] at h2
        have hy : y = x := (Option.some.inj h2).symm
        rw [hy]
        rw [normalize_url, if_neg hx,
          urlparse_of_urlsplit_no_semi x.data r hus hsemi_path]
        have hres : (if lowerL r.netloc ≠ [] then
            some (String.mk (lowerL r.scheme ++ [':', '/', '/'] ++ lowerL r.netloc ++
              rstripSlash r.path))
          else some x) = some x := by
          rw [hn, if_neg (by decide)]
        exact hres
      · obtain ⟨hn_stop, hbr, hp_shape⟩ := hn_rest hn
        have hhost : lowerL r.netloc ≠ [] := lowerL_ne_nil r.netloc hn
        rw [if_pos hhost] at h2
        have hy : y = String.mk (lowerL r.scheme ++ [':', '/', '/'] ++
            lowerL r.netloc ++ rstripSlash r.path) := (Option.some.inj h2).symm
        subst hy
        have hLne : String.mk (lowerL r.scheme ++ [':', '/', '/'] ++
            lowerL r.netloc ++ rstripSlash r.path) ≠ "" := by
          intro hcon
          have hdata : lowerL r.scheme ++ [':', '/', '/'] ++
              lowerL r.netloc ++ rstripSlash r.path = ([] : List Char) :=
            congrArg String.data hcon
          simp at hdata
        rw [normalize_url, if_neg hLne]
        by_cases hsch : r.scheme = []
        · rw [hsch]
          obtain ⟨p2, hp2, hp2n⟩ := urlparse_netloc
            (':' :: '/' :: '/' :: (lowerL r.netloc ++ rstripSlash r.path)) _
            (urlsplit_colon_start ('/' :: '/' :: (lowerL r.netloc ++ rstripSlash r.path)))
          have hpar : urlparse ((String.mk (lowerL [] ++ [':', '/', '/'] ++
              lowerL r.netloc ++ rstripSlash r.path)).data) = some p2 := hp2
          rw [hpar]
          dsimp only
          have hp2n2 : p2.netloc = [] := hp2n
          rw [hp2n2]
          rw [if_neg (by decide)]
        · have hs_alpha : (r.scheme.headD ' ').isAlpha = true := by
            rcases hs_head with h0 | h0
            · exact absurd h0 hsch
            · exact h0
          have hschfix : lowerL r.scheme = r.scheme :=
            lowerL_fixed r.scheme (fun c hc => (hs_chars c hc).2)
          have hp_shape2 : rstripSlash r.path = [] ∨
              ∃ u, rstripSlash r.path = '/' :: u := by
            rcases hp_shape with h0 | ⟨t, h0⟩
            · rw [h0]
              exact Or.inl rfl
            · rw [h0]
              exact rstripSlash_shape t
          have hus2 := urlsplit_rebuild r.scheme (lowerL r.netloc) (rstripSlash r.path)
            hsch hs_chars hs_alpha
            (lowerL_netloc_stop r.netloc hn_stop)
            (lowerL_brackets r.netloc hbr)
            hp_shape2
            (fun hm => hp_hash (mem_rstripSlash r.path '#' hm))
            (fun hm => hp_query (mem_rstripSlash r.path '?' hm))
          have hsemi2 : ¬ ';' ∈ rstripSlash r.path :=
            fun hm => hsemi_path (mem_rstripSlash r.path ';' hm)
          have hup2 := urlparse_of_urlsplit_no_semi _ _ hus2 hsemi2
          have hassoc : (String.mk (lowerL r.scheme ++ [':', '/', '/'] ++
              lowerL r.netloc ++ rstripSlash r.path)).data =
              r.scheme ++ ':' :: '/' :: '/' ::
                (lowerL r.netloc ++ rstripSlash r.path) := by
            rw [hschfix]
            simp
          have hpar : urlparse ((String.mk (lowerL r.scheme ++ [':', '/', '/'] ++
              lowerL r.netloc ++ rstripSlash r.path)).data) =
              some ⟨r.scheme, lowerL r.netloc, rstripSlash r.path, [], [], []⟩ := by
            rw [hassoc]
            exact hup2
          rw [hpar]
          dsimp only
          have hcondpos : lowerL (lowerL r.netloc) ≠ [] := by
            rw [lowerL_idem]
            exact hhost
          rw [if_pos hcondpos]
          rw [lowerL_idem, rstripSlash_idem]

/-- C9 (amended): on semicolon-free input, `normalize_url` is idempotent —
whenever it maps `x` to `y` it maps `y` to `y` — and it is insensitive to
scheme/host case, a trailing slash, and the fragment. -/
theorem C9_normalize_url_idempotent_no_semicolon (x y : String)
    (hsemi : ¬ ';' ∈ x.data) (h : normalize_url x = some y) :
    normalize_url y = some y ∧
    normalize_url "HTTPS://A.com/p/#x" = normalize_url "https://a.com/p" :=
  ⟨normalize_url_fixpoint x y hsemi h, by decide⟩

/-- C9 counterexample: `normalize_url` is not idempotent in general — the
path-parameter split fires only on the second pass for this input. -/
theorem C9_cex :
    normalize_url "http://h/a;b/" = some "http://h/a;b" ∧
    normalize_url "http://h/a;b" = some "http://h/a" ∧
    ¬ normalize_url "http://h/a;b" = some "http://h/a;b" := by
  decide

theorem C9_normalize_url_idempotent_no_semicolon_witness :
    (¬ ';' ∈ "http://a.com/p".data) ∧
    normalize_url "http://a.com/p" = some "http://a.com/p" :=
  ⟨by decide, (C9_normalize_url_idempotent_no_semicolon "http://a.com/p"
    "http://a.com/p" (by decide) (by decide)).1⟩

/-- C3 (amended): for nonempty semicolon-free input that parses with a
nonempty host, `normalize_url` lowercases scheme and host, strips every
trailing slash from the path, and drops both the query and the fragment;
with an empty host it returns the input unchanged; the empty string maps
to the empty string; and input on which `urlsplit` raises maps to `none`. -/
theorem C3_normalize_url_cases (x : String) (r : SplitResult)
    (hx : x ≠ "") (hus : urlsplit x.data = some r) (hsemi : ¬ ';' ∈ x.data) :
    (r.netloc ≠ [] →
      normalize_url x = some (String.mk (lowerL r.scheme ++ [':', '/', '/'] ++
        lowerL r.netloc ++ rstripSlash r.path))) ∧
    (r.netloc = [] → normalize_url x = some x) ∧
    normalize_url "" = some "" ∧
    (∀ u : String, u ≠ "" → urlsplit u.data = none → normalize_url u = none) := by
  obtain ⟨hs_chars, hs_head, hp_hash, hp_query, hp_sub, hn_sub, hn_rest⟩ :=
    urlsplit_props x.data r hus
  have hsemi_path : ¬ ';' ∈ r.path := fun hm => hsemi (hp_sub ';' hm)
  refine ⟨?_, ?_, rfl, ?_⟩
  · intro hn
    rw [normalize_url, if_neg hx,
      urlparse_of_urlsplit_no_semi x.data r hus hsemi_path]
    have hres : (if lowerL r.netloc ≠ [] then
        some (String.mk (lowerL r.scheme ++ [':', '/', '/'] ++ lowerL r.netloc ++
          rstripSlash r.path))
      else some x) = some (String.mk (lowerL r.scheme ++ [':', '/', '/'] ++
        lowerL r.netloc ++ rstripSlash r.path)) := by
      rw [if_pos (lowerL_ne_nil r.netloc hn)]
    exact hres
  · intro hn
    rw [normalize_url, if_neg hx,
      urlparse_of_urlsplit_no_semi x.data r hus hsemi_path]
    have hres : (if lowerL r.netloc ≠ [] then
        some (String.mk (lowerL r.scheme ++ [':', '/', '/'] ++ lowerL r.netloc ++
          rstripSlash r.path))
      else some x) = some x := by
      rw [hn, if_neg (by decide)]
    exact hres
  · intro u hu hnone
    rw [normalize_url, if_neg hu]
    have hp : urlparse u.data = none := by
      rw [urlparse, hnone]
      rfl
    rw [hp]

/-- C3 counterexample: the query string is dropped, not kept, and all
trailing slashes are stripped, not one. -/
theorem C3_cex :
    normalize_url "http://a.com/p?q=1" = some "http://a.com/p" ∧
    (¬ normalize_url "http://a.com/p?q=1" = some "http://a.com/p?q=1") ∧
    normalize_url "http://a.com/p//" = some "http://a.com/p" ∧
    (¬ normalize_url "http://a.com/p//" = some "http://a.com/p/") := by
  decide

theorem C3_normalize_url_cases_witness :
    normalize_url "http://A.com/p/" = some "http://a.com/p" := by
  have h := (C3_normalize_url_cases "http://A.com/p/"
    ⟨"http".data, "A.com".data, "/p/".data, [], []⟩
    (by decide) (by decide) (by decide)).1 (by decide)
  rw [h]
  decide

theorem importL_flat_skip (bn rn now : String) (mkId : Nat → String)
    (l : List Bookmark) (parent : Bookmark) (keys : List String) (ctr : Nat)
    (hflat : ∀ c ∈ l, c.data.type = BookmarkType.url)
    (hin : ∀ c ∈ l, ∃ k, dedupKey c.data.url rn = some k ∧ k ∈ keys) :
    importL bn rn now mkId l parent "" keys ctr =
      some (parent, 0, l.length, keys, ctr) := by
  induction l generalizing parent with
  | nil => rfl
  | cons c rest ih =>
    obtain ⟨cd, ccs⟩ := c
    obtain ⟨k, hk, hkin⟩ := hin _ (List.mem_cons_self _ _)
    have hk' : dedupKey cd.url rn = some k := hk
    have hcd : cd.type = BookmarkType.url := hflat _ (List.mem_cons_self _ _)
    simp only [importL, importBM, hcd]
    rw [if_neg (by decide)]
    simp only [reduceIte, hk']
    rw [if_pos hkin]
    dsimp only
    rw [ih parent (fun c hc => hflat c (List.mem_cons_of_mem _ hc))
      (fun c hc => hin c (List.mem_cons_of_mem _ hc))]
    simp [Nat.add_comm]

theorem importL_flat_fresh (bn rn now : String) (mkId : Nat → String)
    (l : List Bookmark) :
    ∀ (parent : Bookmark) (keys ks : List String) (ctr : Nat),
    (∀ c ∈ l, c.data.type = BookmarkType.url) →
    urlKeys rn l = some ks →
    ks.Nodup →
    (∀ k ∈ ks, ¬ k ∈ keys) →
    ∃ pd : BookmarkData, pd.id = parent.data.id ∧
      importL bn rn now mkId l parent "" keys ctr =
        some (Bookmark.mk pd (parent.children ++
            mkNodes bn mkId parent.data.id l parent.children.length ctr),
          l.length, 0, ks.reverse ++ keys, ctr + l.length) := by
  induction l with
  | nil =>
    intro parent keys ks ctr hflat hks hnd hfresh
    obtain ⟨pd0, pc0⟩ := parent
    have hks0 : ks = [] := (Option.some.inj hks).symm
    subst hks0
    exact ⟨pd0, rfl, by simp [importL, mkNodes, Bookmark.children]⟩
  | cons c rest ih =>
    intro parent keys ks ctr hflat hks hnd hfresh
    obtain ⟨cd, ccs⟩ := c
    obtain ⟨pd0, pc0⟩ := parent
    have hcd : cd.type = BookmarkType.url := hflat _ (List.mem_cons_self _ _)
    simp only [urlKeys] at hks
    cases hdk : dedupKey (Bookmark.mk cd ccs).data.url rn with
    | none =>
      rw [hdk] at hks
      exact Option.noConfusion hks
    | some k =>
      cases hks0 : urlKeys rn rest with
      | none =>
        rw [hdk, hks0] at hks
        exact Option.noConfusion hks
      | some ks0 =>
        rw [hdk, hks0] at hks
        have hks' : some (k :: ks0) = some ks := hks
        have hkseq : ks = k :: ks0 := (Option.some.inj hks').symm
        subst hkseq
        have hk' : dedupKey cd.url rn = some k := hdk
        have hknotin : ¬ k ∈ keys := hfresh k (List.mem_cons_self _ _)
        have hfresh' : ∀ a ∈ ks0, ¬ a ∈ k :: keys := by
          intro a ha hmem
          rcases List.mem_cons.mp hmem with rfl | hmem2
          · exact (List.nodup_cons.mp hnd).1 ha
          · exact hfresh a (List.mem_cons_of_mem _ ha) hmem2
        obtain ⟨pd1, hid1, heq1⟩ := ih
          (Bookmark.mk { pd0 with date_modified := now }
            (pc0 ++ [Bookmark.mk { id := mkId ctr, type := .url, title := cd.title,
                                   url := cd.url, parent_id := some pd0.id,
                                   position := pc0.length,
                                   date_added := cd.date_added,
                                   date_modified := cd.date_modified,
                                   preferred_browser := none,
                                   source_browser := some bn,
                                   source_id := cd.source_id } []]))
          (k :: keys) ks0 (ctr + 1)
          (fun c hc => hflat c (List.mem_cons_of_mem _ hc)) hks0
          (List.nodup_cons.mp hnd).2 hfresh'
        refine ⟨pd1, hid1, ?_⟩
        simp only [importL, importBM, hcd]
        rw [if_neg (by decide)]
        simp only [reduceIte, hk']
        rw [if_neg hknotin]
        dsimp only
        simp only [Bookmark.data, Bookmark.children]
        rw [heq1]
        dsimp only
        simp only [Bookmark.data, Bookmark.children, mkNodes, List.length_cons,
          List.length_append, List.length_nil, List.reverse_cons, List.append_assoc,
          List.singleton_append, List.cons_append, List.nil_append]
        simp [Nat.add_comm, Nat.add_assoc, Nat.add_left_comm]

theorem urlKeys_mem (rn : String) (l : List Bookmark) (ks : List String)
    (hks : urlKeys rn l = some ks) :
    ∀ c ∈ l, ∃ k, dedupKey c.data.url rn = some k ∧ k ∈ ks := by
  induction l generalizing ks with
  | nil =>
    intro c hc
    exact absurd hc (List.not_mem_nil c)
  | cons c0 rest ih =>
    intro c hc
    simp only [urlKeys] at hks
    cases hdk : dedupKey c0.data.url rn with
    | none =>
      rw [hdk] at hks
      exact Option.noConfusion hks
    | some k =>
      cases hks0 : urlKeys rn rest with
      | none =>
        rw [hdk, hks0] at hks
        exact Option.noConfusion hks
      | some ks0 =>
        rw [hdk, hks0] at hks
        have hks' : some (k :: ks0) = some ks := hks
        have hkseq : ks = k :: ks0 := (Option.some.inj hks').symm
        subst hkseq
        rcases List.mem_cons.mp hc with rfl | hc2
        · exact ⟨k, hdk, List.mem_cons_self _ _⟩
        · obtain ⟨k2, hk2, hk2in⟩ := ih ks0 hks0 c hc2
          exact ⟨k2, hk2, List.mem_cons_of_mem _ hk2in⟩

theorem buildKeys_mkNodes (bn rn : String) (mkId : Nat → String) (pid : String)
    (l : List Bookmark) :
    ∀ (ks : List String) (pos ctr : Nat) (acc : List String),
    urlKeys rn l = some ks →
    buildKeys (collectWPL rn "" (mkNodes bn mkId pid l pos ctr)) acc =
      some (ks.reverse ++ acc) := by
  induction l with
  | nil =>
    intro ks pos ctr acc hks
    have hks0 : ks = [] := (Option.some.inj hks).symm
    subst hks0
    rfl
  | cons c rest ih =>
    intro ks pos ctr acc hks
    simp only [urlKeys] at hks
    cases hdk : dedupKey c.data.url rn with
    | none =>
      rw [hdk] at hks
      exact Option.noConfusion hks
    | some k =>
      cases hks0 : urlKeys rn rest with
      | none =>
        rw [hdk, hks0] at hks
        exact Option.noConfusion hks
      | some ks0 =>
        rw [hdk, hks0] at hks
        have hks' : some (k :: ks0) = some ks := hks
        have hkseq : ks = k :: ks0 := (Option.some.inj hks').symm
        subst hkseq
        have key : buildKeys (collectWPL rn ""
            (mkNodes bn mkId pid (c :: rest) pos ctr)) acc =
            buildKeys (collectWPL rn "" (mkNodes bn mkId pid rest (pos + 1) (ctr + 1)))
              (k :: acc) := by
          show (match dedupKey c.data.url rn with
            | none => none
            | some k2 =>
              buildKeys (collectWPL rn "" (mkNodes bn mkId pid rest (pos + 1) (ctr + 1)))
                (k2 :: acc)) =
            buildKeys (collectWPL rn "" (mkNodes bn mkId pid rest (pos + 1) (ctr + 1)))
              (k :: acc)
          rw [hdk]
        rw [key, ih ks0 (pos + 1) (ctr + 1) (k :: acc) hks0]
        simp

/-- C5 (amended): importing a snapshot whose `bookmark_bar` root holds a
flat list of URL bookmarks with distinct normalizable dedup keys into a
fresh default store adds them all and skips none; importing the same
snapshot again adds none and skips them all. -/
theorem C5_import_flat (bn now now2 barId otherId t0 : String)
    (mkId mkId2 : Nat → String) (rd : BookmarkData) (l : List Bookmark)
    (ks : List String)
    (hflat : ∀ c ∈ l, c.data.type = BookmarkType.url)
    (hks : urlKeys "bookmark_bar" l = some ks)
    (hnd : ks.Nodup) :
    ∃ store1 store2 : BookmarkStore,
      import_from_browser bn (defaultStore barId otherId t0)
        (some (browserSnapshot rd l)) now mkId 0 =
        some (store1, l.length, 0, none) ∧
      import_from_browser bn store1 (some (browserSnapshot rd l)) now2 mkId2 0 =
        some (store2, 0, l.length, none) := by
  obtain ⟨pd1, hid1, heq1⟩ := importL_flat_fresh bn "bookmark_bar" now mkId l
    (defaultRoot barId "Bookmarks Bar" t0) [] ks 0 hflat hks hnd
    (fun k _ h => absurd h (List.not_mem_nil k))
  have h1 : importRoot bn now mkId (browserSnapshot rd l) "bookmark_bar"
      (defaultStore barId otherId t0, 0, 0, [], 0) =
      some ({ defaultStore barId otherId t0 with
          roots := rootsSet "bookmark_bar"
            (Bookmark.mk pd1 (mkNodes bn mkId barId l 0 0))
            (defaultStore barId otherId t0).roots },
        0 + l.length, 0 + 0, ks.reverse ++ [], 0 + l.length) := by
    show (match importL bn "bookmark_bar" now mkId l
        (defaultRoot barId "Bookmarks Bar" t0) "" [] 0 with
      | none => none
      | some (sroot', a, s, keys', ctr') =>
        some ({ defaultStore barId otherId t0 with
            roots := rootsSet "bookmark_bar" sroot'
              (defaultStore barId otherId t0).roots },
          0 + a, 0 + s, keys', ctr')) = _
    rw [heq1]
    rfl
  have hfirst : import_from_browser bn (defaultStore barId otherId t0)
      (some (browserSnapshot rd l)) now mkId 0 =
      some ({ defaultStore barId otherId t0 with
          roots := rootsSet "bookmark_bar"
            (Bookmark.mk pd1 (mkNodes bn mkId barId l 0 0))
            (defaultStore barId otherId t0).roots },
        0 + l.length, 0 + 0, none) := by
    show (match importRoot bn now mkId (browserSnapshot rd l) "bookmark_bar"
        (defaultStore barId otherId t0, 0, 0, [], 0) with
      | none => none
      | some st1 =>
        match importRoot bn now mkId (browserSnapshot rd l) "other" st1 with
        | none => none
        | some st2 => some (st2.1, st2.2.1, st2.2.2.1, none)) = _
    rw [h1]
    rfl
  have hA : buildKeys (collectWPL "bookmark_bar" ""
      (mkNodes bn mkId barId l 0 0)) [] = some (ks.reverse ++ []) :=
    buildKeys_mkNodes bn "bookmark_bar" mkId barId l ks 0 0 [] hks
  rw [List.append_nil] at hA
  have hin2 : ∀ c ∈ l, ∃ k, dedupKey c.data.url "bookmark_bar" = some k ∧
      k ∈ ks.reverse := by
    intro c hc
    obtain ⟨k, hk, hkin⟩ := urlKeys_mem "bookmark_bar" l ks hks c hc
    exact ⟨k, hk, List.mem_reverse.mpr hkin⟩
  have hskip := importL_flat_skip bn "bookmark_bar" now2 mkId2 l
    (Bookmark.mk pd1 (mkNodes bn mkId barId l 0 0)) ks.reverse 0 hflat hin2
  have h4 : importRoot bn now2 mkId2 (browserSnapshot rd l) "bookmark_bar"
      ({ defaultStore barId otherId t0 with
          roots := rootsSet "bookmark_bar"
            (Bookmark.mk pd1 (mkNodes bn mkId barId l 0 0))
            (defaultStore barId otherId t0).roots },
        0, 0, ks.reverse, 0) =
      some ({ { defaultStore barId otherId t0 with
          roots := rootsSet "bookmark_bar"
            (Bookmark.mk pd1 (mkNodes bn mkId barId l 0 0))
            (defaultStore barId otherId t0).roots } with
          roots := rootsSet "bookmark_bar"
            (Bookmark.mk pd1 (mkNodes bn mkId barId l 0 0))
            ({ defaultStore barId otherId t0 with
              roots := rootsSet "bookmark_bar"
                (Bookmark.mk pd1 (mkNodes bn mkId barId l 0 0))
                (defaultStore barId otherId t0).roots }).roots },
        0 + 0, 0 + l.length, ks.reverse, 0) := by
    show (match importL bn "bookmark_bar" now2 mkId2 l
        (Bookmark.mk pd1 (mkNodes bn mkId barId l 0 0)) "" ks.reverse 0 with
      | none => none
      | some (sroot', a, s, keys', ctr') =>
        some ({ { defaultStore barId otherId t0 with
            roots := rootsSet "bookmark_bar"
              (Bookmark.mk pd1 (mkNodes bn mkId barId l 0 0))
              (defaultStore barId otherId t0).roots } with
            roots := rootsSet "bookmark_bar" sroot'
              ({ defaultStore barId otherId t0 with
                roots := rootsSet "bookmark_bar"
                  (Bookmark.mk pd1 (mkNodes bn mkId barId l 0 0))
                  (defaultStore barId otherId t0).roots }).roots },
          0 + a, 0 + s, keys', ctr')) = _
    rw [hskip]
  have hsecond : import_from_browser bn
      ({ defaultStore barId otherId t0 with
          roots := rootsSet "bookmark_bar"
            (Bookmark.mk pd1 (mkNodes bn mkId barId l 0 0))
            (defaultStore barId otherId t0).roots })
      (some (browserSnapshot rd l)) now2 mkId2 0 =
      some ({ { defaultStore barId otherId t0 with
          roots := rootsSet "bookmark_bar"
            (Bookmark.mk pd1 (mkNodes bn mkId barId l 0 0))
            (defaultStore barId otherId t0).roots } with
          roots := rootsSet "bookmark_bar"
            (Bookmark.mk pd1 (mkNodes bn mkId barId l 0 0))
            ({ defaultStore barId otherId t0 with
              roots := rootsSet "bookmark_bar"
                (Bookmark.mk pd1 (mkNodes bn mkId barId l 0 0))
                (defaultStore barId otherId t0).roots }).roots },
        0 + 0, 0 + l.length, none) := by
    show (match buildKeys (collectWPL "bookmark_bar" ""
        (mkNodes bn mkId barId l 0 0) ++ []) [] with
      | none => none
      | some keys0 =>
        match importRoot bn now2 mkId2 (browserSnapshot rd l) "bookmark_bar"
          ({ defaultStore barId otherId t0 with
              roots := rootsSet "bookmark_bar"
                (Bookmark.mk pd1 (mkNodes bn mkId barId l 0 0))
                (defaultStore barId otherId t0).roots },
            0, 0, keys0, 0) with
        | none => none
        | some st1 =>
          match importRoot bn now2 mkId2 (browserSnapshot rd l) "other" st1 with
          | none => none
          | some st2 => some (st2.1, st2.2.1, st2.2.2.1, none)) = _
    rw [List.append_nil, hA]
    dsimp only
    rw [h4]
    rfl
  simp only [Nat.zero_add] at hfirst hsecond
  exact ⟨_, _, hfirst, hsecond⟩

/-- C5 counterexample: a snapshot with one URL bookmark inside a folder has
N = 1 unique (url, path) URL bookmarks, yet the first import into a fresh
store reports added = 2 — folder creation counts towards `added`. -/
theorem C5_cex :
    (collectWPL "bookmark_bar" "" [wFolder]).length = 1 ∧
    (import_from_browser "chrome" (defaultStore "b0" "o0" "t0")
      (some (browserSnapshot wRootData [wFolder])) "t1" (fun _ => "n") 0).map
        (fun r => (r.2.1, r.2.2.1)) = some (2, 0) ∧
    ¬ (import_from_browser "chrome" (defaultStore "b0" "o0" "t0")
      (some (browserSnapshot wRootData [wFolder])) "t1" (fun _ => "n") 0).map
        (fun r => (r.2.1, r.2.2.1)) =
      some ((collectWPL "bookmark_bar" "" [wFolder]).length, 0) := by
  decide

theorem C5_import_flat_witness :
    (∀ c ∈ [wUrl1, wUrl2], c.data.type = BookmarkType.url) ∧
    urlKeys "bookmark_bar" [wUrl1, wUrl2] =
      some ["http://a.com/1|bookmark_bar", "http://a.com/2|bookmark_bar"] ∧
    (["http://a.com/1|bookmark_bar", "http://a.com/2|bookmark_bar"] :
      List String).Nodup ∧
    (∃ store1 store2 : BookmarkStore,
      import_from_browser "chrome" (defaultStore "b0" "o0" "t0")
        (some (browserSnapshot wRootData [wUrl1, wUrl2])) "t1" (fun _ => "n1") 0 =
        some (store1, 2, 0, none) ∧
      import_from_browser "chrome" store1
        (some (browserSnapshot wRootData [wUrl1, wUrl2])) "t2" (fun _ => "n2") 0 =
        some (store2, 0, 2, none)) :=
  ⟨by decide, by decide, by decide,
   C5_import_flat "chrome" "t1" "t2" "b0" "o0" "t0" (fun _ => "n1") (fun _ => "n2")
     wRootData [wUrl1, wUrl2]
     ["http://a.com/1|bookmark_bar", "http://a.com/2|bookmark_bar"]
     (by decide) (by decide) (by decide)⟩

theorem C1_plan_sync_no_delete_witness :
    plan_sync (fun _ => some 0) (defaultStore "b0" "o0" "t0") "chrome"
      (some (browserSnapshot wRootData [wUrl1])) = some wPlanVal ∧
    (wAct.action = SyncActionType.add_to_store ∨
     wAct.action = SyncActionType.update_store ∨
     wAct.action = SyncActionType.add_to_browser ∨
     wAct.action = SyncActionType.update_browser) :=
  ⟨rfl, C1_plan_sync_no_delete (fun _ => some 0) (defaultStore "b0" "o0" "t0")
    "chrome" (some (browserSnapshot wRootData [wUrl1])) wPlanVal wAct rfl
    (List.mem_cons_self _ _)⟩

theorem C2_execute_sync_running_witness :
    ([wBrAct].any isBrowserDirected = true) ∧
    (wRes.browser_written = false ∧ wRes.browser_changes = 0 ∧
     wRes.error = some ("chrome" ++ " is running. Browser changes not applied.") ∧
     wRes.store_saved = decide (0 < wRes.store_changes) ∧
     ∃ res2, execute_sync (defaultStore "b0" "o0" "t0") "chrome" [wBrAct] false true
        (fun _ => "n") "t1" = some res2 ∧
       res2.store = wRes.store ∧ res2.store_changes = wRes.store_changes ∧
       res2.store_saved = wRes.store_saved) :=
  ⟨rfl, C2_execute_sync_running (defaultStore "b0" "o0" "t0") "chrome" [wBrAct]
    true (fun _ => "n") "t1" wRes rfl rfl⟩

theorem C8_remove_reindex_witness :
    posOkStore (defaultStore "b0" "o0" "t0") = true ∧
    (((defaultStore "b0" "o0" "t0").remove "zz" "t1").1 = none ↔
      ¬ "zz" ∈ descIds (defaultStore "b0" "o0" "t0")) :=
  ⟨by decide,
   (C8_remove_reindex (defaultStore "b0" "o0" "t0") "zz" "t1" (by decide)).2.1⟩

theorem C10_move_not_atomic_witness :
    (allIds wStoreA).Nodup ∧
    (wStoreA.move "u1" "nope" 0 "t1" = (false, wStoreA1) ∧
     wStoreA1.find_by_id "u1" = none ∧ ¬ wStoreA1 = wStoreA) :=
  ⟨by decide,
   C10_move_not_atomic wStoreA "u1" "nope" 0 "t1" wUrl1 wStoreA1
     (by decide) rfl (Or.inl rfl)⟩

end Bookmarker
